import Mathlib

/-!
Verification development for the nestjs-rpc-toolkit contract compiler.

The definitions below are a shallow embedding of the repository's
TypeScript sources:
  * the per-module type generator and its topological sort
    (`topologicalSortTypes`, `collectExternalImports`, `extractTypeNames`),
  * codec detection and nested-codec propagation of the packaged
    generator (`getCodecForType`, `extractClassAsInterface` field
    processing, `resolveNestedTypeReferences`),
  * method discovery (`processMethod`), the runtime registry
    (`registerMethod`) and the in-process transport (`handleMessage`).

JavaScript `Map`/`Set` objects are modelled as insertion-ordered
association lists / duplicate-free lists, matching the iteration-order
semantics the code relies on.  JavaScript regular expressions used by the
code are modelled by explicit character scanners that follow the engine's
leftmost-match, word-boundary (`\b` with `\w = [A-Za-z0-9_]`) behaviour.
-/

namespace Rpc

/-! JavaScript character classes (ASCII, as used by the regexes in the code). -/

def jsIsWordChar (c : Char) : Bool :=
  (('a' ≤ c && c ≤ 'z') || ('A' ≤ c && c ≤ 'Z') || ('0' ≤ c && c ≤ '9') || c = '_')

def jsIsIdentChar (c : Char) : Bool :=
  jsIsWordChar c || c = '$'

def isUpperAZ (c : Char) : Bool :=
  ('A' ≤ c && c ≤ 'Z')

def isAlnumAZ (c : Char) : Bool :=
  (('a' ≤ c && c ≤ 'z') || ('A' ≤ c && c ≤ 'Z') || ('0' ≤ c && c ≤ '9'))

def jsIsSpace (c : Char) : Bool :=
  (c = ' ' || c = '\t' || c = '\n' || c = '\r' || c = '\x0b' || c = '\x0c')

/-! JavaScript `Map` modelled as an insertion-ordered association list with
string keys.  `Map.set` overwrites the value of an existing key in place and
appends new keys; `Map.get`/`Map.has` look the key up. -/

def jsSet {β : Type} : List (String × β) → String → β → List (String × β)
  | [], k, v => [(k, v)]
  | p :: rest, k, v => if p.1 = k then (k, v) :: rest else p :: jsSet rest k v

def jsGet? {β : Type} : List (String × β) → String → Option β
  | [], _ => none
  | p :: rest, k => if p.1 = k then some p.2 else jsGet? rest k

def jsHas {β : Type} (m : List (String × β)) (k : String) : Bool :=
  m.any (fun p => p.1 = k)

/-! JavaScript `Set` of strings: a duplicate-free list in insertion order. -/

def jsAdd (s : List String) (x : String) : List String :=
  if s.contains x then s else s ++ [x]

def dedupeKeepFirst (l : List String) : List String :=
  l.foldl jsAdd []

/-! Character-list utilities used to model the regular expressions. -/

def chStartsWith : List Char → List Char → Bool
  | [], _ => true
  | _ :: _, [] => false
  | p :: ps, c :: cs => p = c && chStartsWith ps cs

def chFind (pat : List Char) : List Char → Option Nat
  | [] => if chStartsWith pat [] then some 0 else none
  | c :: cs =>
    if chStartsWith pat (c :: cs) then some 0
    else (chFind pat cs).map (· + 1)

def chContainsSub (s pat : List Char) : Bool :=
  (chFind pat s).isSome

/-- ASCII lowercase, the effect of `toLowerCase()` on the class names the
generator handles. -/
def chToLower (c : Char) : Char :=
  if 'A' ≤ c && c ≤ 'Z' then Char.ofNat (c.toNat + 32) else c

def toLowerAscii (s : String) : String :=
  String.mk (s.toList.map chToLower)

def chEndsWith (s suf : String) : Bool :=
  chStartsWith suf.toList.reverse s.toList.reverse

def dropRightStr (s : String) (n : Nat) : String :=
  String.mk (s.toList.take (s.toList.length - n))

/-- `split(sep)[0]`: the characters before the first separator. -/
def firstSegment (sep : Char) (s : String) : String :=
  String.mk (s.toList.takeWhile (fun c => c ≠ sep))

def chSplitOnPipe : List Char → List (List Char)
  | [] => [[]]
  | '|' :: rest => [] :: chSplitOnPipe rest
  | c :: rest =>
    match chSplitOnPipe rest with
    | [] => [[c]]
    | seg :: segs => (c :: seg) :: segs

def chTrim (s : List Char) : List Char :=
  ((s.dropWhile jsIsSpace).reverse.dropWhile jsIsSpace).reverse

/-- Removes every non-overlapping lazy match of `opn … cls` scanning left to
right, as `String.replace` with a global lazy regex does (e.g.
`/\*\*[\s\S]*?\*\//g`).  Fuel-driven; a fuel of `length + 1` always
suffices since every removal consumes at least one character. -/
def stripBlocksAux (opn cls : List Char) : Nat → List Char → List Char
  | 0, s => s
  | fuel + 1, s =>
    match chFind opn s with
    | none => s
    | some i =>
      let afterOpen := s.drop (i + opn.length)
      match chFind cls afterOpen with
      | none => s
      | some j =>
        s.take i ++ stripBlocksAux opn cls fuel (afterOpen.drop (j + cls.length))

def dropUntilNewline : List Char → List Char
  | [] => []
  | '\n' :: rest => '\n' :: rest
  | _ :: rest => dropUntilNewline rest

/-- Removes `//` line comments up to (excluding) the end of the line, as the
regex `/\/\/.*$/gm` does. -/
def stripLineCommentsAux : Nat → List Char → List Char
  | 0, s => s
  | _, [] => []
  | fuel + 1, '/' :: '/' :: rest => stripLineCommentsAux fuel (dropUntilNewline rest)
  | fuel + 1, c :: rest => c :: stripLineCommentsAux fuel rest

def dropTrailingDollar (run : List Char) : List Char :=
  (run.reverse.dropWhile (fun c => c = '$')).reverse

/-- All matches of the JavaScript regex `\b[A-Z][a-zA-Z0-9_$]*\b` in order.
`prevWord` tracks whether the previous character was a word character, which
decides the leading `\b`; the trailing `\b` makes the engine backtrack over
trailing `$` characters (non-word) when the run ends with them. -/
def scanUpperIdentsAux : Nat → Bool → List Char → List String
  | 0, _, _ => []
  | _, _, [] => []
  | fuel + 1, prevWord, c :: rest =>
    if !prevWord && isUpperAZ c then
      let runRest := rest.takeWhile jsIsIdentChar
      let rest2 := rest.drop runRest.length
      let run := c :: runRest
      let m := dropTrailingDollar run
      String.mk m :: scanUpperIdentsAux fuel (jsIsWordChar (run.getLastD c)) rest2
    else
      scanUpperIdentsAux fuel (jsIsWordChar c) rest

/-- `isBuiltInType` of the generator (identical list in both generator
files). -/
def isBuiltInType (typeName : String) : Bool :=
  [ "Array", "Object", "String", "Number", "Boolean",
    "Promise", "Date", "RegExp", "Error", "Map", "Set",
    "Record", "Partial", "Required", "Readonly", "Pick", "Omit",
    "Buffer", "Stream", "EventEmitter", "Socket",
    "HTMLElement", "Document", "Window", "Event", "FileList", "File", "Blob",
    "Function", "CallbackFunction" ].contains typeName

/-- `extractTypeNames` of the standalone generator: strip JSDoc comments,
block comments and line comments, collect every match of
`\b[A-Z][a-zA-Z0-9_$]*\b`, drop built-in type names, and deduplicate keeping
first occurrences (a JS `Set`). -/
def extractTypeNames (typeString : String) : List String :=
  let cs := typeString.toList
  let noJsdoc := stripBlocksAux ['/', '*', '*'] ['*', '/'] (cs.length + 1) cs
  let noBlocks := stripBlocksAux ['/', '*'] ['*', '/'] (noJsdoc.length + 1) noJsdoc
  let noComments := stripLineCommentsAux (noBlocks.length + 1) noBlocks
  dedupeKeepFirst
    ((scanUpperIdentsAux (noComments.length + 1) false noComments).filter
      (fun n => !isBuiltInType n))

/-! Data shapes of the generator (`InterfaceDefinition`, `EnumDefinition`,
`RpcMethodInfo`). -/

structure InterfaceDefinition where
  name : String
  source : String
  module : String
  jsDoc : Option String := none
deriving DecidableEq, Repr

structure EnumDefinition where
  name : String
  source : String
  module : String
  jsDoc : Option String := none
deriving DecidableEq, Repr

structure RpcMethodInfo where
  pattern : String
  methodName : String
  module : String
  paramTypes : List (String × String)
  returnType : String
  sourceFile : String
  typeParameters : Option (List String) := none
  jsDoc : Option String := none
deriving DecidableEq, Repr

/-! `topologicalSortTypes` of the standalone generator.  The dependency
graph, the in-degree map and the queue follow the code line by line; the
`while` loop is fuel-driven (each iteration moves one queue element into
`sorted`, and the invariants proved below show at most `types.length`
iterations can happen, so the chosen fuel is never exhausted). -/

/-- The dependency set of one type: names extracted from its source that are
in the type-name set, are not the type itself and are not generic
parameters. -/
def interfaceDeps (typeNames generics : List String) (t : InterfaceDefinition) :
    List String :=
  (extractTypeNames t.source).filter
    (fun d => typeNames.contains d && d ≠ t.name && !generics.contains d)

def typeNamesOf (types : List InterfaceDefinition) : List String :=
  dedupeKeepFirst (types.map (·.name))

def depsMapOf (types : List InterfaceDefinition) (generics : List String) :
    List (String × List String) :=
  types.foldl (fun m t => jsSet m t.name (interfaceDeps (typeNamesOf types) generics t)) []

def depsOf (types : List InterfaceDefinition) (generics : List String) (n : String) :
    List String :=
  (jsGet? (depsMapOf types generics) n).getD []

def typeMapOf (types : List InterfaceDefinition) : List (String × InterfaceDefinition) :=
  types.foldl (fun m t => jsSet m t.name t) []

/-- `inDegree`: for each type name, the number of its own dependencies. -/
def inDeg0Of (types : List InterfaceDefinition) (generics : List String) :
    List (String × Int) :=
  (typeNamesOf types).foldl
    (fun m n => jsSet m n ((depsOf types generics n).length : Int)) []

/-- The initial queue: names whose in-degree is zero, in map iteration
order. -/
def queue0Of (types : List InterfaceDefinition) (generics : List String) :
    List String :=
  (inDeg0Of types generics).foldl (fun q p => if p.2 = 0 then q ++ [p.1] else q) []

/-- One pass of the inner `typeNames.forEach` of the loop body: for every
name whose dependency set contains the processed `name`, decrement its
in-degree and enqueue it when the new degree is zero. -/
def kahnDecrement (depsMap : List (String × List String)) (name : String)
    (st : List (String × Int) × List String) (dn : String) :
    List (String × Int) × List String :=
  match jsGet? depsMap dn with
  | none => st
  | some ds =>
    if ds.contains name then
      let newDeg := ((jsGet? st.1 dn).getD 1) - 1
      (jsSet st.1 dn newDeg, if newDeg = 0 then st.2 ++ [dn] else st.2)
    else st

def kahnLoop (typeMap : List (String × InterfaceDefinition))
    (depsMap : List (String × List String)) (typeNames : List String) :
    Nat → List (String × Int) → List String → List InterfaceDefinition →
    List InterfaceDefinition
  | 0, _, _, sorted => sorted
  | _ + 1, _, [], sorted => sorted
  | fuel + 1, inDeg, name :: rest, sorted =>
    let sorted' := match jsGet? typeMap name with
      | some t => sorted ++ [t]
      | none => sorted
    let st := typeNames.foldl (kahnDecrement depsMap name) (inDeg, rest)
    kahnLoop typeMap depsMap typeNames fuel st.1 st.2 sorted'

/-- The part of `topologicalSortTypes` produced by the queue phase (before
the residual-cycle append). -/
def kahnSorted (types : List InterfaceDefinition) (generics : List String) :
    List InterfaceDefinition :=
  kahnLoop (typeMapOf types) (depsMapOf types generics) (typeNamesOf types)
    (types.length + 1) (inDeg0Of types generics) (queue0Of types generics) []

/-- `topologicalSortTypes`: Kahn's algorithm on the restricted dependency
graph; residual nodes (cycles) are appended in discovery order. -/
def topologicalSortTypes (types : List InterfaceDefinition) (generics : List String) :
    List InterfaceDefinition :=
  if types.isEmpty then [] else
  let sorted := kahnSorted types generics
  if sorted.length < types.length then
    sorted ++ types.filter (fun t => !sorted.contains t)
  else sorted

/-! Module-level type collection of `generateModuleTypesFile` and
`collectExternalImports` of the standalone generator.  The generator state
relevant here: the extracted `interfaces` and `enums` maps and the
`typeToPackageMap` built from non-relative imports. -/

structure GenState where
  interfaces : List (String × InterfaceDefinition)
  enums : List (String × EnumDefinition)
  typeToPackageMap : List (String × String)
deriving Repr

def isInternalType (n : String) : Bool :=
  ["InterfaceDefinition", "RpcMethodInfo", "RpcGenerationConfig",
   "GeneratorOptions"].contains n

def firstWord (s : String) : String :=
  firstSegment ' ' s

/-- Add extracted names to a JS `Set`, skipping generic parameter names (the
repeated `if (!genericTypeParamNames.has(typeName)) referencedTypes.add`
idiom). -/
def addNames (generics acc names : List String) : List String :=
  names.foldl (fun a n => if generics.contains n then a else jsAdd a n) acc

/-- The seed pass over a module's methods: collect generic-parameter names
and all type names extracted from parameter types, return types and generic
constraints.  Generic names accumulate method by method, exactly as the
sequential `forEach` does. -/
def collectSignatureRefs (methods : List RpcMethodInfo) : List String × List String :=
  methods.foldl
    (fun (st : List String × List String) m =>
      let g := (m.typeParameters.getD []).foldl (fun g tp => jsAdd g (firstWord tp)) st.1
      let r := m.paramTypes.foldl (fun r pr => addNames g r (extractTypeNames pr.2)) st.2
      let r := addNames g r (extractTypeNames m.returnType)
      let r := (m.typeParameters.getD []).foldl
        (fun r tp => addNames g r (extractTypeNames tp)) r
      (g, r))
    ([], [])

/-- One element of one round of the transitive-closure `while` loop: skip
already-collected and generic names, otherwise collect the name and queue
the names extracted from its interface source for the next round. -/
def closureRound (interfaces : List (String × InterfaceDefinition))
    (generics : List String) (st : List String × List String) (typeName : String) :
    List String × List String :=
  if st.1.contains typeName || generics.contains typeName then st
  else
    let collected := st.1 ++ [typeName]
    match jsGet? interfaces typeName with
    | some idef =>
      (collected,
        (extractTypeNames idef.source).foldl
          (fun acc n =>
            if collected.contains n || generics.contains n then acc else jsAdd acc n)
          st.2)
    | none => (collected, st.2)

def closureLoopAux (interfaces : List (String × InterfaceDefinition))
    (generics : List String) : Nat → List String → List String → List String
  | 0, collected, _ => collected
  | fuel + 1, collected, toProcess =>
    if toProcess.isEmpty then collected
    else
      let st := toProcess.foldl (closureRound interfaces generics) (collected, [])
      closureLoopAux interfaces generics fuel st.1 st.2

/-- A fuel bound: every name that can ever be queued comes from the seeds or
from `extractTypeNames` of some extracted source. -/
def nameBudget (st : GenState) (seeds : List String) : Nat :=
  seeds.length
    + (st.interfaces.map (fun p => (extractTypeNames p.2.source).length)).sum
    + (st.enums.map (fun p => (extractTypeNames p.2.source).length)).sum + 1

/-- The referenced-type set of one module, i.e. the seeds of
`generateModuleTypesFile` expanded to the transitive closure over locally
defined interface sources.  Returns `(genericTypeParamNames,
referencedTypes)`. -/
def moduleReferencedTypes (st : GenState) (methods : List RpcMethodInfo) :
    List String × List String :=
  let gr := collectSignatureRefs methods
  let collected := closureLoopAux st.interfaces gr.1 (nameBudget st gr.2) [] gr.2
  (gr.1, collected.foldl jsAdd gr.2)

/-- Adds one external type under its package, creating the package entry if
missing (a `Map` of `Set`s). -/
def extImportsAdd (ext : List (String × List String)) (pkg ty : String) :
    List (String × List String) :=
  jsSet ext pkg (jsAdd ((jsGet? ext pkg).getD []) ty)

/-- The reverse expansion of `collectExternalImports`: scan every extracted
interface whose raw source contains the current (external) type name as a
substring and queue the names extracted from that source. -/
def expandFromMatchingInterfaces (interfaces : List (String × InterfaceDefinition))
    (checked generics : List String) (current : String) (toCheck : List String) :
    List String :=
  interfaces.foldl
    (fun tc p =>
      if chContainsSub p.2.source.toList current.toList then
        (extractTypeNames p.2.source).foldl
          (fun tc n =>
            if checked.contains n || generics.contains n then tc else jsAdd tc n)
          tc
      else tc)
    toCheck

/-- `interfaces.get(currentType) || enums.get(currentType)`. -/
def localSourceOf (st : GenState) (n : String) : Option String :=
  match jsGet? st.interfaces n with
  | some idef => some idef.source
  | none => (jsGet? st.enums n).map (·.source)

/-- The worklist loop of `collectExternalImports`. -/
def collectExtLoop (st : GenState) (generics : List String) :
    Nat → List (String × List String) → List String → List String →
    List (String × List String)
  | 0, ext, _, _ => ext
  | fuel + 1, ext, toCheck, checked =>
    match toCheck with
    | [] => ext
    | current :: rest =>
      let checked' := jsAdd checked current
      if isBuiltInType current || generics.contains current || isInternalType current then
        collectExtLoop st generics fuel ext rest checked'
      else
        let isLocal := jsHas st.interfaces current || jsHas st.enums current
        if !isLocal && jsHas st.typeToPackageMap current then
          let pkg := (jsGet? st.typeToPackageMap current).getD ""
          let ext' := extImportsAdd ext pkg current
          let toCheck' := expandFromMatchingInterfaces st.interfaces checked' generics
            current rest
          collectExtLoop st generics fuel ext' toCheck' checked'
        else
          if isLocal then
            match localSourceOf st current with
            | some src =>
              let toCheck' := (extractTypeNames src).foldl
                (fun tc n =>
                  if checked'.contains n || generics.contains n then tc else jsAdd tc n)
                rest
              collectExtLoop st generics fuel ext toCheck' checked'
            | none => collectExtLoop st generics fuel ext rest checked'
          else
            collectExtLoop st generics fuel ext rest checked'

def collectExternalImports (st : GenState) (referencedTypes generics : List String) :
    List (String × List String) :=
  collectExtLoop st generics (nameBudget st referencedTypes) [] referencedTypes []

/-- The per-package import sets a module artifact's import statements are
generated from (`externalImports` in `generateModuleTypesFile`): one
`import { … } from pkg` line is emitted per entry, listing exactly the
types of that entry. -/
def moduleExternalImports (st : GenState) (methods : List RpcMethodInfo) :
    List (String × List String) :=
  let gr := moduleReferencedTypes st methods
  collectExternalImports st gr.2 gr.1

/-! Codec handling of the packaged generator
(`packages/nestjs-rpc-toolkit/src/generators/rpc-types-generator.ts`):
`codecMappings`, `getCodecForType`, the DTO-class field extraction of
`extractClassAsInterface`, `extractMainTypeName` and
`resolveNestedTypeReferences`. -/

structure CodecInfo where
  codecName : String
  wireType : String
deriving DecidableEq, Repr

/-- `codecMappings`: source type, codec name, wire type.  Only the `Date`
entry exists (the `BigInt`/`Buffer` entries are commented out in the
source). -/
def codecMappings : List (String × String × String) :=
  [("Date", "Date", "string")]

/-- Models `typeStr.replace(/\s/g, '')` for ASCII input. -/
def stripJsSpaces (s : String) : String :=
  String.mk (s.toList.filter (fun c => !jsIsSpace c))

/-- Models `typeStr.replace(new RegExp("\\b" + pat + "\\b", "g"), rep)` for a
pattern that starts and ends with word characters (as `Date` does). -/
def wbReplaceAux (pat rep : List Char) : Nat → Bool → List Char → List Char
  | 0, _, s => s
  | _, _, [] => []
  | fuel + 1, prevWord, c :: rest =>
    if !prevWord && chStartsWith pat (c :: rest)
        && (match (c :: rest).drop pat.length with
            | [] => true
            | a :: _ => !jsIsWordChar a) then
      rep ++ wbReplaceAux pat rep fuel (jsIsWordChar (pat.getLastD c))
        ((c :: rest).drop pat.length)
    else
      c :: wbReplaceAux pat rep fuel (jsIsWordChar c) rest

def wordBoundaryReplace (s pat rep : String) : String :=
  String.mk (wbReplaceAux pat.toList rep.toList (s.length + 1) false s.toList)

/-- The `for … of Object.entries(codecMappings)` loop of `getCodecForType`,
returning on the first matching entry. -/
def codecLookup (typeStr normalized : String) :
    List (String × String × String) → Option CodecInfo
  | [] => none
  | (src, codecName, wireType) :: rest =>
    if normalized = src
        || chContainsSub normalized.toList (src ++ "|").toList
        || chContainsSub normalized.toList ("|" ++ src).toList then
      some ⟨codecName, wordBoundaryReplace typeStr src wireType⟩
    else codecLookup typeStr normalized rest

/-- `getCodecForType`: strip whitespace and test
`normalized === src || normalized.includes(src + "|") ||
normalized.includes("|" + src)`; on a hit, the wire type is the original
text with word-bounded occurrences of the source type replaced. -/
def getCodecForType (typeStr : String) : Option CodecInfo :=
  codecLookup typeStr (stripJsSpaces typeStr) codecMappings

/-- Models `replace(/\[\]/g, '')` (and any other fixed-literal global
replacement by deletion). -/
def removeSubAll (pat : List Char) : Nat → List Char → List Char
  | 0, s => s
  | _, [] => []
  | fuel + 1, c :: rest =>
    if chStartsWith pat (c :: rest) then
      removeSubAll pat fuel ((c :: rest).drop pat.length)
    else c :: removeSubAll pat fuel rest

def lastIndexOfGt (seg : List Char) : Option Nat :=
  match chFind ['>'] seg.reverse with
  | none => none
  | some i => some (seg.length - 1 - i)

/-- Match of `/Promise<(.+)>/` anchored at the head of `s`: after
`Promise<`, the greedy `.+` spans non-newline characters and backtracks to
the last `>` that leaves at least one content character. -/
def promiseMatchAt (s : List Char) : Option (List Char) :=
  if chStartsWith "Promise<".toList s then
    let afterOpen := s.drop 8
    let seg := afterOpen.takeWhile (fun c => c ≠ '\n')
    match lastIndexOfGt seg with
    | some j => if 1 ≤ j then some (seg.take j) else none
    | none => none
  else none

def promiseInnerAux : Nat → List Char → Option (List Char)
  | 0, _ => none
  | _, [] => none
  | fuel + 1, c :: rest =>
    match promiseMatchAt (c :: rest) with
    | some content => some content
    | none => promiseInnerAux fuel rest

/-- `match(/Promise<(.+)>/)` group 1, if any (leftmost match). -/
def promiseInner (s : String) : Option String :=
  (promiseInnerAux (s.length + 1) s.toList).map String.mk

/-- First match of `\b([A-Z][a-zA-Z0-9]*)\b` (note: no `_`/`$` in this
character class, unlike `extractTypeNames`). -/
def firstUpperAlnumAux : Nat → Bool → List Char → Option String
  | 0, _, _ => none
  | _, _, [] => none
  | fuel + 1, prevWord, c :: rest =>
    if !prevWord && isUpperAZ c then
      let runRest := rest.takeWhile isAlnumAZ
      let rest2 := rest.drop runRest.length
      match rest2 with
      | [] => some (String.mk (c :: runRest))
      | a :: _ =>
        if !jsIsWordChar a then some (String.mk (c :: runRest))
        else firstUpperAlnumAux fuel (jsIsWordChar c) rest
    else firstUpperAlnumAux fuel (jsIsWordChar c) rest

/-- `extractMainTypeName`: drop `[]`, unwrap `Promise<…>`, take the first
capitalized identifier. -/
def extractMainTypeName (typeStr : String) : Option String :=
  let t1 := String.mk (removeSubAll ['[', ']'] (typeStr.length + 1) typeStr.toList)
  let t2 := match promiseInner t1 with
    | some inner => inner
    | none => t1
  firstUpperAlnumAux (t2.length + 1) false t2.toList

/-- A class property as the extractor sees it: the explicit type annotation
when present, otherwise the cleaned inferred type is used. -/
structure PropDecl where
  name : String
  typeNodeText : Option String
  inferredTypeText : String := ""
  isPrivate : Bool := false
  jsDoc : Option String := none
deriving DecidableEq, Repr

/-- Models `replace(/import\("[^"]*"\)\./g, '')`. -/
def stripImportPathsAux : Nat → List Char → List Char
  | 0, s => s
  | _, [] => []
  | fuel + 1, c :: rest =>
    if chStartsWith "import(\"".toList (c :: rest) then
      let after := (c :: rest).drop 8
      let run := after.takeWhile (fun ch => ch ≠ '"')
      let rest2 := after.drop run.length
      if chStartsWith "\")".toList rest2 && chStartsWith ['.'] (rest2.drop 2) then
        stripImportPathsAux fuel (rest2.drop 3)
      else c :: stripImportPathsAux fuel rest
    else c :: stripImportPathsAux fuel rest

def cleanTypeString (s : String) : String :=
  String.mk (stripImportPathsAux (s.length + 1) s.toList)

/-- `cleanReturnType`: unwrap a `Promise<…>` wrapper, then strip import
paths. -/
def cleanReturnType (s : String) : String :=
  let t := match promiseInner s with
    | some inner => inner
    | none => s
  cleanTypeString t

def propTypeText (p : PropDecl) : String :=
  p.typeNodeText.getD (cleanTypeString p.inferredTypeText)

def propLine (p : PropDecl) (ty : String) : String :=
  (match p.jsDoc with
   | some d => d ++ "\n"
   | none => "") ++ "  " ++ p.name ++ ": " ++ ty ++ ";"

structure ClassPropsResult where
  lines : List String
  codecFields : List (String × String)
  pending : List (String × String)
deriving DecidableEq, Repr

/-- One iteration of the property loop of `extractClassAsInterface`: either
record a codec entry and emit the wire type, or record a pending
nested-type check and emit the declared type. -/
def processProp (acc : ClassPropsResult) (p : PropDecl) : ClassPropsResult :=
  match getCodecForType (propTypeText p) with
  | some ci =>
    { lines := acc.lines ++ [propLine p ci.wireType],
      codecFields := jsSet acc.codecFields p.name ci.codecName,
      pending := acc.pending }
  | none =>
    { lines := acc.lines ++ [propLine p (propTypeText p)],
      codecFields := acc.codecFields,
      pending := match extractMainTypeName (propTypeText p) with
        | some et => if isBuiltInType et then acc.pending
                     else acc.pending ++ [(p.name, et)]
        | none => acc.pending }

/-- The property processing of `extractClassAsInterface` (private fields are
filtered out first). -/
def processClassProps (props : List PropDecl) : ClassPropsResult :=
  (props.filter (fun p => !p.isPrivate)).foldl processProp ⟨[], [], []⟩

/-- One pending check of `resolveNestedTypeReferences`: if the referenced
type currently has a codec table, map the owner's field to the nested
reference `@referencedType`. -/
def applyPendingCheck (owner : String)
    (cf : List (String × List (String × String))) (chk : String × String) :
    List (String × List (String × String)) :=
  if jsHas cf chk.2 then
    jsSet cf owner (jsSet ((jsGet? cf owner).getD []) chk.1 ("@" ++ chk.2))
  else cf

def resolveOwnerChecks (cf : List (String × List (String × String)))
    (ow : String × List (String × String)) :
    List (String × List (String × String)) :=
  ow.2.foldl (applyPendingCheck ow.1) cf

/-- `resolveNestedTypeReferences`: the dedicated pass over all pending
nested-type checks, in map insertion order. -/
def resolveNestedTypeReferences
    (codecFields : List (String × List (String × String)))
    (pending : List (String × List (String × String)))  :
    List (String × List (String × String)) :=
  pending.foldl resolveOwnerChecks codecFields

/-! Method discovery (`processMethod` in both generator files — the logic is
identical) and the `RpcController` module-prefix resolution it mirrors. -/

inductive DecoratorArg where
  | literal (s : String)
  | nonLiteral
deriving DecidableEq, Repr

structure ClassDecl where
  hasRpcController : Bool
  firstArg : Option DecoratorArg := none
  symbolName : Option String := none
deriving DecidableEq, Repr

structure MethodDecl where
  hasRpcMethodDecorator : Bool
  methodName : Option String := none
  parent : Option ClassDecl := none
  params : List (String × String) := []
  returnTypeText : String := ""
  typeParams : List (String × Option String) := []
  jsDoc : Option String := none
  filePath : String := ""
deriving DecidableEq, Repr

/-- `className.replace(/(Service|Application|Handler|Repository)$/, '')`: at
most one of the alternatives can be a suffix, so the anchored alternation
strips exactly that one. -/
def stripRoleSuffix (s : String) : String :=
  if chEndsWith s "Service" then dropRightStr s 7
  else if chEndsWith s "Application" then dropRightStr s 11
  else if chEndsWith s "Handler" then dropRightStr s 7
  else if chEndsWith s "Repository" then dropRightStr s 10
  else s

/-- Class-name inference: `(getSymbol()?.getName() || 'unknown')`, strip the
role suffix, lowercase. -/
def inferModulePrefix (symbolName : Option String) : String :=
  toLowerAscii (stripRoleSuffix (symbolName.getD "unknown"))

/-- Module-prefix resolution of `processMethod` (and of the
`RpcController` decorator): the literal decorator argument when present,
otherwise inference from the class name. -/
def resolveModulePrefix (cls : ClassDecl) : String :=
  match cls.firstArg with
  | some (DecoratorArg.literal s) => s
  | some DecoratorArg.nonLiteral => inferModulePrefix cls.symbolName
  | none => inferModulePrefix cls.symbolName

def renderTypeParam (tp : String × Option String) : String :=
  match tp.2 with
  | some constraintText => tp.1 ++ " extends " ++ constraintText
  | none => tp.1

/-- `processMethod`, with the warnings it prints returned as a list (the
source wraps the pattern of the warning in single quotes and prefixes a
warning sign; the text is abbreviated here, the branch is what matters). -/
def processMethodW (m : MethodDecl) : Option RpcMethodInfo × List String :=
  if !m.hasRpcMethodDecorator then (none, []) else
  let methodName := m.methodName.getD "unknown"
  match m.parent with
  | none => (none, [])
  | some cls =>
    if !cls.hasRpcController then (none, []) else
    let modulePrefix := resolveModulePrefix cls
    let pattern := modulePrefix ++ "." ++ methodName
    if !(pattern.toList.any (fun c => c = '.')) then
      (none, ["RPC pattern " ++ pattern ++ " should have module prefix. This might be from an older decorator."])
    else
      let rendered := m.typeParams.map renderTypeParam
      (some
        { pattern := pattern,
          methodName := methodName,
          module := firstSegment '.' pattern,
          paramTypes := m.params.map (fun pr => (pr.1, cleanTypeString pr.2)),
          returnType := cleanReturnType m.returnTypeText,
          sourceFile := m.filePath,
          typeParameters := if rendered.isEmpty then none else some rendered,
          jsDoc := m.jsDoc }, [])

def processMethod (m : MethodDecl) : Option RpcMethodInfo :=
  (processMethodW m).1

/-- The discovery walk: collect the `RpcMethodInfo` of every method node
`processMethod` accepts, and every warning printed along the way. -/
def scanForRpcMethods (nodes : List MethodDecl) : List RpcMethodInfo × List String :=
  nodes.foldl
    (fun acc n =>
      match processMethodW n with
      | (some info, ws) => (acc.1 ++ [info], acc.2 ++ ws)
      | (none, ws) => (acc.1, acc.2 ++ ws))
    ([], [])

/-! The runtime registry (`rpc-registry.ts`, final revision in the file) and
the in-process transport (`in-process.transport.ts`). -/

structure RpcMethodMetadata where
  pattern : String
  module : String
  methodName : String
  returnType : Option String := none
  target : String := ""
  propertyKey : String := ""
deriving DecidableEq, Repr

structure RpcRegistry where
  methods : List (String × RpcMethodMetadata)
  modulesMethods : List (String × List RpcMethodMetadata)
deriving DecidableEq, Repr

def emptyRegistry : RpcRegistry := ⟨[], []⟩

/-- `findIndex` on pattern followed by in-place assignment when found, push
otherwise: the first entry carrying the pattern is replaced, order
preserved; a new entry is appended. -/
def upsertByPattern : List RpcMethodMetadata → RpcMethodMetadata → List RpcMethodMetadata
  | [], md => [md]
  | x :: rest, md =>
    if x.pattern = md.pattern then md :: rest else x :: upsertByPattern rest md

/-- `registerMethod`: pattern-keyed `Map.set` plus per-module list where an
existing entry with the same pattern is replaced in place. -/
def registerMethod (r : RpcRegistry) (md : RpcMethodMetadata) : RpcRegistry :=
  let methods := jsSet r.methods md.pattern md
  let mm := if jsHas r.modulesMethods md.module then r.modulesMethods
            else jsSet r.modulesMethods md.module []
  let lst := (jsGet? mm md.module).getD []
  ⟨methods, jsSet mm md.module (upsertByPattern lst md)⟩

def getMethod (r : RpcRegistry) (pattern : String) : Option RpcMethodMetadata :=
  jsGet? r.methods pattern

def getAllMethods (r : RpcRegistry) : List RpcMethodMetadata :=
  r.methods.map (·.2)

def getModuleMethods (r : RpcRegistry) (module : String) : List RpcMethodMetadata :=
  (jsGet? r.modulesMethods module).getD []

def registerAll (l : List RpcMethodMetadata) : RpcRegistry :=
  l.foldl registerMethod emptyRegistry

/-- `handleMessage` of the in-process transport: look the pattern up in the
handler table; reject with the pattern-naming error when unregistered,
otherwise produce the handler's result.  (Handlers are modelled as pure
functions; the rxjs-Observable unwrapping branch is outside this
embedding.) -/
def handleMessage {α β : Type} (handlers : List (String × (α → β)))
    (pattern : String) (data : α) : Except String β :=
  match jsGet? handlers pattern with
  | none => Except.error ("No handler registered for pattern: " ++ pattern)
  | some h => Except.ok (h data)

end Rpc

namespace Rpc

/-! Auxiliary specification predicates used by the theorems below. -/

/-- The topological-order property of a list of type definitions: every
definition's dependencies occur strictly earlier in the list. -/
def depsPrecede (types : List InterfaceDefinition) (generics : List String)
    (l : List InterfaceDefinition) : Prop :=
  ∀ i (hi : i < l.length), ∀ b ∈ depsOf types generics (l.get ⟨i, hi⟩).name,
    b ∈ (l.take i).map InterfaceDefinition.name

/-- The names of a list of type definitions, in order. -/
def namesOf (l : List InterfaceDefinition) : List String :=
  l.map (·.name)

/-- The in-degree value `kahnLoop` maintains for a node `n` once the types
named in `S` have been moved to `sorted`: its number of dependencies minus
the number of those already emitted. -/
def degExpr (types : List InterfaceDefinition) (generics : List String)
    (S : List String) (n : String) : Int :=
  ((depsOf types generics n).length : Int) -
    (((depsOf types generics n).filter (fun d => S.contains d)).length : Int)

/-- The loop invariant of `kahnLoop`. -/
structure KahnInv (types : List InterfaceDefinition) (generics : List String)
    (inDeg : List (String × Int)) (queue : List String)
    (sorted : List InterfaceDefinition) : Prop where
  nodup : (queue ++ namesOf sorted).Nodup
  queueSub : ∀ n ∈ queue, n ∈ namesOf types
  sortedSub : ∀ t ∈ sorted, t ∈ types
  deg : ∀ n ∈ namesOf types,
    jsGet? inDeg n = some (degExpr types generics (namesOf sorted) n)
  queueDeps : ∀ n ∈ queue, ∀ b ∈ depsOf types generics n, b ∈ namesOf sorted
  ordered : depsPrecede types generics sorted

/-- What the invariant yields about the queue-phase output: distinct names,
drawn from the input, topologically ordered. -/
def KahnPost (types : List InterfaceDefinition) (generics : List String)
    (r : List InterfaceDefinition) : Prop :=
  (namesOf r).Nodup ∧ (∀ t ∈ r, t ∈ types) ∧ depsPrecede types generics r

/-- The condition under which `getCodecForType` fires for the `Date` codec,
read off the code: the whitespace-stripped type text equals `Date` or
contains `Date|` or `|Date` as a substring. -/
def dateCodecCond (t : String) : Prop :=
  stripJsSpaces t = "Date"
    ∨ chContainsSub (stripJsSpaces t).toList "Date|".toList = true
    ∨ chContainsSub (stripJsSpaces t).toList "|Date".toList = true

instance (t : String) : Decidable (dateCodecCond t) := by
  unfold dateCodecCond
  infer_instance

/-- The spec's wording of the codec trigger, for comparison: the field's
type text exactly equals `Date` or is unioned with it, i.e. the list of
union members (the type text split on `|`, trimmed) contains `Date`. -/
def specDateUnioned (t : String) : Bool :=
  ((chSplitOnPipe t.toList).map (fun seg => String.mk (chTrim seg))).contains "Date"

/-- Well-formedness of the runtime registry, preserved by `registerMethod`:
the methods map is keyed by pattern with unique keys, and every per-module
list holds at most one entry per pattern. -/
def registryWF (r : RpcRegistry) : Prop :=
  (∀ p ∈ r.methods, p.2.pattern = p.1) ∧
  (r.methods.map Prod.fst).Nodup ∧
  (∀ q ∈ r.modulesMethods, (q.2.map RpcMethodMetadata.pattern).Nodup)

/-! Basic lemmas about the JS `Map`/`Set` model. -/

theorem contains_eq_false_of_not_mem {s : List String} {a : String} (h : a ∉ s) :
    s.contains a = false := by
  rcases hc : s.contains a with _ | _
  · rfl
  · exact absurd (by simpa using hc) h

theorem contains_eq_true_of_mem {s : List String} {a : String} (h : a ∈ s) :
    s.contains a = true := by
  simpa using h

theorem jsGet?_jsSet {β : Type} (m : List (String × β)) (k k' : String) (v : β) :
    jsGet? (jsSet m k v) k' = if k' = k then some v else jsGet? m k' := by
  induction m with
  | nil =>
    by_cases hk : k' = k
    · simp [jsSet, jsGet?, hk]
    · have hk' : ¬ k = k' := fun h => hk h.symm
      simp [jsSet, jsGet?, hk, hk']
  | cons p rest ih =>
    by_cases hp : p.1 = k
    · by_cases hk : k' = k
      · simp [jsSet, jsGet?, hp, hk]
      · have h1 : ¬ k = k' := fun h => hk h.symm
        simp [jsSet, jsGet?, hp, hk, h1]
    · by_cases hpk : p.1 = k'
      · have hk : ¬ k' = k := fun h => hp (by rw [hpk, h])
        simp [jsSet, jsGet?, hp, hpk, hk]
      · simp [jsSet, jsGet?, hp, hpk, ih]

theorem jsGet?_jsSet_self {β : Type} (m : List (String × β)) (k : String) (v : β) :
    jsGet? (jsSet m k v) k = some v := by
  simp [jsGet?_jsSet]

theorem jsGet?_jsSet_ne {β : Type} (m : List (String × β)) (k k' : String) (v : β)
    (h : k' ≠ k) : jsGet? (jsSet m k v) k' = jsGet? m k' := by
  simp [jsGet?_jsSet, h]

theorem jsHas_eq_isSome {β : Type} (m : List (String × β)) (k : String) :
    jsHas m k = (jsGet? m k).isSome := by
  induction m with
  | nil => rfl
  | cons p rest ih =>
    by_cases hp : p.1 = k
    · simp [jsHas, jsGet?, hp]
    · simp only [jsHas] at ih ⊢
      simp [jsGet?, hp, ih]

theorem jsHas_of_get_eq_some {β : Type} {m : List (String × β)} {k : String} {v : β}
    (h : jsGet? m k = some v) : jsHas m k = true := by
  rw [jsHas_eq_isSome, h]; rfl

theorem jsHas_jsSet {β : Type} (m : List (String × β)) (k k' : String) (v : β) :
    jsHas (jsSet m k v) k' = (jsHas m k' || decide (k' = k)) := by
  rw [jsHas_eq_isSome, jsHas_eq_isSome, jsGet?_jsSet]
  by_cases hk : k' = k <;> simp [hk]

theorem mem_jsSet {β : Type} (m : List (String × β)) (k : String) (v : β) (p : String × β) :
    p ∈ jsSet m k v → p = (k, v) ∨ p ∈ m := by
  induction m with
  | nil => simp [jsSet]
  | cons q rest ih =>
    by_cases hq : q.1 = k
    · simp [jsSet, hq]
      rintro (h | h)
      · left; exact h
      · right; right; exact h
    · simp [jsSet, hq]
      rintro (h | h)
      · right; left; exact h
      · rcases ih h with h' | h'
        · left; exact h'
        · right; right; exact h'

theorem keys_jsSet_of_has {β : Type} (m : List (String × β)) (k : String) (v : β)
    (h : jsHas m k = true) : (jsSet m k v).map Prod.fst = m.map Prod.fst := by
  induction m with
  | nil => simp [jsHas] at h
  | cons q rest ih =>
    by_cases hq : q.1 = k
    · simp [jsSet, hq]
    · have h' : jsHas rest k = true := by
        simp only [jsHas, List.any_cons] at h
        rcases Bool.or_eq_true_iff.mp h with h1 | h1
        · exact absurd (by simpa using h1) hq
        · exact h1
      simp [jsSet, hq, ih h']

theorem keys_jsSet_of_not_has {β : Type} (m : List (String × β)) (k : String) (v : β)
    (h : jsHas m k = false) : (jsSet m k v).map Prod.fst = m.map Prod.fst ++ [k] := by
  induction m with
  | nil => simp [jsSet]
  | cons q rest ih =>
    have hq : ¬ q.1 = k := by
      intro hh
      simp [jsHas, hh] at h
    have h' : jsHas rest k = false := by
      simp only [jsHas, List.any_cons, Bool.or_eq_false_iff] at h
      exact h.2
    simp [jsSet, hq, ih h']

/-! Lemmas about JS `Set`s (`jsAdd` / `dedupeKeepFirst`). -/

theorem mem_jsAdd {s : List String} {x y : String} :
    y ∈ jsAdd s x ↔ y ∈ s ∨ y = x := by
  by_cases hx : x ∈ s
  · simp only [jsAdd, contains_eq_true_of_mem hx, if_true]
    constructor
    · exact fun hy => Or.inl hy
    · rintro (hy | rfl)
      · exact hy
      · exact hx
  · simp [jsAdd, contains_eq_false_of_not_mem hx, hx]

theorem nodup_jsAdd {s : List String} (h : s.Nodup) (x : String) :
    (jsAdd s x).Nodup := by
  by_cases hx : x ∈ s
  · simpa only [jsAdd, contains_eq_true_of_mem hx, if_true] using h
  · simp only [jsAdd, contains_eq_false_of_not_mem hx, Bool.false_eq_true, if_false]
    simp [List.nodup_append, h, hx]

theorem mem_foldl_jsAdd {l s : List String} {y : String} :
    y ∈ l.foldl jsAdd s ↔ y ∈ s ∨ y ∈ l := by
  induction l generalizing s with
  | nil => simp
  | cons a l ih =>
    simp only [List.foldl_cons, ih, mem_jsAdd, List.mem_cons]
    tauto

theorem nodup_foldl_jsAdd {l : List String} {s : List String} (h : s.Nodup) :
    (l.foldl jsAdd s).Nodup := by
  induction l generalizing s with
  | nil => simpa
  | cons a l ih => exact ih (nodup_jsAdd h a)

theorem dedupeKeepFirst_nodup (l : List String) : (dedupeKeepFirst l).Nodup :=
  nodup_foldl_jsAdd List.nodup_nil

theorem mem_dedupeKeepFirst {l : List String} {y : String} :
    y ∈ dedupeKeepFirst l ↔ y ∈ l := by
  simp [dedupeKeepFirst, mem_foldl_jsAdd]

theorem foldl_jsAdd_eq_append {l s : List String} (h : (s ++ l).Nodup) :
    l.foldl jsAdd s = s ++ l := by
  induction l generalizing s with
  | nil => simp
  | cons a l ih =>
    have hx : a ∉ s := by
      intro hmem
      rw [List.nodup_append] at h
      exact h.2.2 hmem (by simp)
    have step : jsAdd s a = s ++ [a] := by
      simp only [jsAdd, contains_eq_false_of_not_mem hx, Bool.false_eq_true, if_false]
    have h' : ((s ++ [a]) ++ l).Nodup := by
      simpa using h
    simp only [List.foldl_cons, step, ih h']
    simp

theorem dedupeKeepFirst_eq_self {l : List String} (h : l.Nodup) :
    dedupeKeepFirst l = l := by
  have := foldl_jsAdd_eq_append (l := l) (s := []) (by simpa using h)
  simpa [dedupeKeepFirst] using this

/-! C9: the dispatcher contract of the in-process transport. -/

/-- C9: for every pattern with no registered handler, `handleMessage`
rejects with the distinguishable error naming the pattern
(`No handler registered for pattern: <p>`); for every registered pattern it
produces the handler's result. -/
theorem c9_dispatch {α β : Type} (handlers : List (String × (α → β)))
    (pattern : String) (data : α) :
    (jsGet? handlers pattern = none →
      handleMessage handlers pattern data =
        Except.error ("No handler registered for pattern: " ++ pattern)) ∧
    (∀ h, jsGet? handlers pattern = some h →
      handleMessage handlers pattern data = Except.ok (h data)) := by
  constructor
  · intro h
    simp [handleMessage, h]
  · intro f hf
    simp [handleMessage, hf]

/-- Witness for C9 at a concrete handler table. -/
theorem c9_witness :
    handleMessage [("user.find", fun n => n + 1)] "nope" (0 : Nat) =
      Except.error "No handler registered for pattern: nope" ∧
    handleMessage [("user.find", fun n => n + 1)] "user.find" (41 : Nat) =
      Except.ok 42 := by
  constructor
  · exact (c9_dispatch [("user.find", fun n => n + 1)] "nope" 0).1 rfl
  · exact (c9_dispatch [("user.find", fun n => n + 1)] "user.find" 41).2
      (fun n => n + 1) rfl

/-! C4: pattern construction of discovered methods. -/

/-- C4: every method `processMethod` accepts yields
`pattern = modulePrefix ++ "." ++ methodName`, where the prefix is the
literal controller-marker argument when present, and otherwise the class
name with its role suffix stripped and lowercased. -/
theorem c4_pattern_resolution (m : MethodDecl) (info : RpcMethodInfo)
    (h : processMethod m = some info) :
    ∃ cls, m.parent = some cls ∧ m.hasRpcMethodDecorator = true ∧
      cls.hasRpcController = true ∧
      info.methodName = m.methodName.getD "unknown" ∧
      info.pattern =
        (match cls.firstArg with
         | some (DecoratorArg.literal s) => s
         | _ => toLowerAscii (stripRoleSuffix (cls.symbolName.getD "unknown")))
          ++ "." ++ info.methodName := by
  unfold processMethod processMethodW at h
  rcases hdec : m.hasRpcMethodDecorator with _ | _
  · rw [hdec] at h
    simp at h
  · rw [hdec] at h
    simp only [Bool.not_true, Bool.false_eq_true, if_false] at h
    rcases hpar : m.parent with _ | cls
    · rw [hpar] at h
      simp at h
    · rw [hpar] at h
      simp only at h
      rcases hctl : cls.hasRpcController with _ | _
      · rw [hctl] at h
        simp at h
      · rw [hctl] at h
        simp only [Bool.not_true, Bool.false_eq_true, if_false] at h
        by_cases hdot :
            ((resolveModulePrefix cls ++ "." ++ m.methodName.getD "unknown").toList.any
              (fun c => c = '.')) = true
        · rw [hdot] at h
          simp only [Bool.not_true, Bool.false_eq_true, if_false] at h
          refine ⟨cls, rfl, rfl, hctl, ?_, ?_⟩
          · rw [← Option.some_inj.mp h]
          · rw [← Option.some_inj.mp h]
            cases harg : cls.firstArg with
            | none => simp [resolveModulePrefix, harg, inferModulePrefix]
            | some a =>
              cases a with
              | literal s => simp [resolveModulePrefix, harg]
              | nonLiteral => simp [resolveModulePrefix, harg, inferModulePrefix]
        · rw [Bool.not_eq_true] at hdot
          rw [hdot] at h
          simp at h

/-- Witness for C4: controller class `UserService` with no explicit prefix
and marked method `lookupUsers` yields the pattern `user.lookupUsers`. -/
theorem c4_witness :
    processMethod
        { hasRpcMethodDecorator := true, methodName := some "lookupUsers",
          parent := some { hasRpcController := true, firstArg := none,
                           symbolName := some "UserService" },
          params := [("dto", "LookupUsersDto")],
          returnTypeText := "Promise<User[]>", typeParams := [],
          jsDoc := none, filePath := "user.controller.ts" } =
      some { pattern := "user.lookupUsers", methodName := "lookupUsers",
             module := "user", paramTypes := [("dto", "LookupUsersDto")],
             returnType := "User[]", sourceFile := "user.controller.ts",
             typeParameters := none, jsDoc := none } ∧
    (∃ cls,
      (({ hasRpcMethodDecorator := true, methodName := some "lookupUsers",
          parent := some { hasRpcController := true, firstArg := none,
                           symbolName := some "UserService" },
          params := [("dto", "LookupUsersDto")],
          returnTypeText := "Promise<User[]>", typeParams := [],
          jsDoc := none, filePath := "user.controller.ts" } : MethodDecl)).parent
            = some cls ∧
      ({ hasRpcMethodDecorator := true, methodName := some "lookupUsers",
          parent := some { hasRpcController := true, firstArg := none,
                           symbolName := some "UserService" },
          params := [("dto", "LookupUsersDto")],
          returnTypeText := "Promise<User[]>", typeParams := [],
          jsDoc := none, filePath := "user.controller.ts" } : MethodDecl).hasRpcMethodDecorator
            = true ∧
      cls.hasRpcController = true ∧
      ({ pattern := "user.lookupUsers", methodName := "lookupUsers",
         module := "user", paramTypes := [("dto", "LookupUsersDto")],
         returnType := "User[]", sourceFile := "user.controller.ts",
         typeParameters := none, jsDoc := none } : RpcMethodInfo).methodName
          = (some "lookupUsers").getD "unknown" ∧
      ({ pattern := "user.lookupUsers", methodName := "lookupUsers",
         module := "user", paramTypes := [("dto", "LookupUsersDto")],
         returnType := "User[]", sourceFile := "user.controller.ts",
         typeParameters := none, jsDoc := none } : RpcMethodInfo).pattern =
        (match cls.firstArg with
         | some (DecoratorArg.literal s) => s
         | _ => toLowerAscii (stripRoleSuffix (cls.symbolName.getD "unknown")))
          ++ "." ++ "lookupUsers") := by
  constructor
  · decide
  · exact c4_pattern_resolution _ _ (by decide)

/-! C7: a method marker without an enclosing controller marker. -/

/-- Counterexample to C7 as stated: a method bearing the method marker whose
class lacks the controller marker is skipped, but NO warning is printed
(the warning list is empty) — the claim says a warning is printed. -/
theorem c7_counterexample :
    processMethodW
        { hasRpcMethodDecorator := true, methodName := some "lookupUsers",
          parent := some { hasRpcController := false, firstArg := none,
                           symbolName := some "UserService" },
          params := [], returnTypeText := "Promise<string>", typeParams := [],
          jsDoc := none, filePath := "user.controller.ts" } =
      (none, []) := by
  decide

/-- C7 amended: such a method is skipped silently — no warning is printed —
the run continues, and the method contributes nothing to discovery. -/
theorem c7_amended_silent_skip (m : MethodDecl) (cls : ClassDecl)
    (h1 : m.hasRpcMethodDecorator = true) (h2 : m.parent = some cls)
    (h3 : cls.hasRpcController = false) :
    processMethodW m = (none, []) ∧
    ∀ pre post, scanForRpcMethods (pre ++ m :: post) = scanForRpcMethods (pre ++ post) := by
  have hskip : processMethodW m = (none, []) := by
    unfold processMethodW
    rw [h1, h2]
    simp [h3]
  refine ⟨hskip, ?_⟩
  intro pre post
  unfold scanForRpcMethods
  rw [List.foldl_append, List.foldl_append, List.foldl_cons, hskip]
  simp

/-- Witness for C7 at a concrete method node. -/
theorem c7_witness :
    (({ hasRpcMethodDecorator := true, methodName := some "getThing",
        parent := some { hasRpcController := false, firstArg := none,
                         symbolName := some "ThingService" },
        params := [], returnTypeText := "Promise<Thing>", typeParams := [],
        jsDoc := none, filePath := "thing.service.ts" } : MethodDecl).hasRpcMethodDecorator
          = true ∧
      ({ hasRpcController := false, firstArg := none,
         symbolName := some "ThingService" } : ClassDecl).hasRpcController = false) ∧
    (processMethodW
        { hasRpcMethodDecorator := true, methodName := some "getThing",
          parent := some { hasRpcController := false, firstArg := none,
                           symbolName := some "ThingService" },
          params := [], returnTypeText := "Promise<Thing>", typeParams := [],
          jsDoc := none, filePath := "thing.service.ts" } = (none, []) ∧
      ∀ pre post,
        scanForRpcMethods (pre ++
            { hasRpcMethodDecorator := true, methodName := some "getThing",
              parent := some { hasRpcController := false, firstArg := none,
                               symbolName := some "ThingService" },
              params := [], returnTypeText := "Promise<Thing>", typeParams := [],
              jsDoc := none, filePath := "thing.service.ts" } :: post) =
          scanForRpcMethods (pre ++ post)) :=
  ⟨⟨rfl, rfl⟩, c7_amended_silent_skip _ _ rfl rfl rfl⟩

/-! C3: nested codec propagation.  The pass only ever adds entries to the
codec-field maps, so key presence is monotone; a referenced type whose
table is non-empty before the pass therefore triggers every check against
it, and the written entry survives the rest of the pass when no later
check targets the same owner and field. -/

theorem jsHas_applyPendingCheck (owner k : String)
    (cf : List (String × List (String × String))) (chk : String × String)
    (h : jsHas cf k = true) :
    jsHas (applyPendingCheck owner cf chk) k = true := by
  unfold applyPendingCheck
  by_cases hc : jsHas cf chk.2 = true
  · rw [if_pos hc, jsHas_jsSet, h]
    rfl
  · rw [if_neg hc]
    exact h

theorem jsHas_foldChecks (owner k : String) (C : List (String × String))
    (cf : List (String × List (String × String))) (h : jsHas cf k = true) :
    jsHas (C.foldl (applyPendingCheck owner) cf) k = true := by
  induction C generalizing cf with
  | nil => exact h
  | cons chk C ih =>
    exact ih _ (jsHas_applyPendingCheck owner k cf chk h)

theorem jsHas_foldOwners (k : String)
    (P : List (String × List (String × String)))
    (cf : List (String × List (String × String))) (h : jsHas cf k = true) :
    jsHas (P.foldl resolveOwnerChecks cf) k = true := by
  induction P generalizing cf with
  | nil => exact h
  | cons ow P ih =>
    exact ih _ (jsHas_foldChecks ow.1 k ow.2 cf h)

theorem applyPendingCheck_entry_preserved (owner f v : String)
    (cf : List (String × List (String × String))) (chk : String × String)
    (hne : chk.1 ≠ f) (mm : List (String × String))
    (hown : jsGet? cf owner = some mm) (hf : jsGet? mm f = some v) :
    ∃ mm', jsGet? (applyPendingCheck owner cf chk) owner = some mm' ∧
      jsGet? mm' f = some v := by
  unfold applyPendingCheck
  by_cases hc : jsHas cf chk.2 = true
  · rw [if_pos hc]
    refine ⟨jsSet ((jsGet? cf owner).getD []) chk.1 ("@" ++ chk.2),
      jsGet?_jsSet_self _ _ _, ?_⟩
    rw [hown, Option.getD_some]
    rw [jsGet?_jsSet_ne mm chk.1 f ("@" ++ chk.2) (Ne.symm hne)]
    exact hf
  · rw [if_neg hc]
    exact ⟨mm, hown, hf⟩

theorem foldChecks_entry_preserved (owner f v : String) (C : List (String × String))
    (cf : List (String × List (String × String)))
    (hC : ∀ chk ∈ C, chk.1 ≠ f) (mm : List (String × String))
    (hown : jsGet? cf owner = some mm) (hf : jsGet? mm f = some v) :
    ∃ mm', jsGet? (C.foldl (applyPendingCheck owner) cf) owner = some mm' ∧
      jsGet? mm' f = some v := by
  induction C generalizing cf mm with
  | nil => exact ⟨mm, hown, hf⟩
  | cons chk C ih =>
    obtain ⟨mm', h1, h2⟩ := applyPendingCheck_entry_preserved owner f v cf chk
      (hC chk (List.mem_cons_self _ _)) mm hown hf
    exact ih _ (fun c hc => hC c (List.mem_cons_of_mem _ hc)) mm' h1 h2

theorem applyPendingCheck_other_owner (ow owner : String) (hne : ow ≠ owner)
    (cf : List (String × List (String × String))) (chk : String × String) :
    jsGet? (applyPendingCheck ow cf chk) owner = jsGet? cf owner := by
  unfold applyPendingCheck
  by_cases hc : jsHas cf chk.2 = true
  · rw [if_pos hc, jsGet?_jsSet_ne _ _ _ _ (Ne.symm hne)]
  · rw [if_neg hc]

theorem foldChecks_other_owner (ow owner : String) (hne : ow ≠ owner)
    (C : List (String × String)) (cf : List (String × List (String × String))) :
    jsGet? (C.foldl (applyPendingCheck ow) cf) owner = jsGet? cf owner := by
  induction C generalizing cf with
  | nil => rfl
  | cons chk C ih =>
    rw [List.foldl_cons, ih, applyPendingCheck_other_owner ow owner hne]

theorem foldOwners_other_preserved (owner : String)
    (P : List (String × List (String × String)))
    (cf : List (String × List (String × String)))
    (hP : ∀ q ∈ P, q.1 ≠ owner) :
    jsGet? (P.foldl resolveOwnerChecks cf) owner = jsGet? cf owner := by
  induction P generalizing cf with
  | nil => rfl
  | cons q P ih =>
    rw [List.foldl_cons]
    rw [ih _ (fun r hr => hP r (List.mem_cons_of_mem _ hr))]
    exact foldChecks_other_owner q.1 owner (hP q (List.mem_cons_self _ _)) q.2 cf

theorem resolveOwnerChecks_split
    (cf : List (String × List (String × String))) (owner : String)
    (C1 C2 : List (String × String)) (f R : String) :
    resolveOwnerChecks cf (owner, C1 ++ (f, R) :: C2) =
      C2.foldl (applyPendingCheck owner)
        (applyPendingCheck owner (C1.foldl (applyPendingCheck owner) cf) (f, R)) := by
  show List.foldl (applyPendingCheck owner) cf (C1 ++ (f, R) :: C2) = _
  rw [List.foldl_append, List.foldl_cons]

theorem applyPendingCheck_fires (owner : String)
    (cf : List (String × List (String × String))) (f R : String)
    (h : jsHas cf R = true) :
    applyPendingCheck owner cf (f, R) =
      jsSet cf owner (jsSet ((jsGet? cf owner).getD []) f ("@" ++ R)) := by
  show (if jsHas cf R = true then
      jsSet cf owner (jsSet ((jsGet? cf owner).getD []) f ("@" ++ R)) else cf) = _
  rw [if_pos h]

/-- C3: after the nested-codec pass, for every pending check
`(owner, field, referencedType)`: if the referenced type had a codec table
when the pass started, the owner's codec table maps the field to the nested
reference `@referencedType`.  (Codec tables only grow during the pass, and
the extractor records each owner once and each of its fields at most once,
which the `Nodup` hypotheses express.) -/
theorem c3_nested_codec_propagation
    (cf pending : List (String × List (String × String)))
    (owner : String) (checks : List (String × String)) (f R : String)
    (hpend : (pending.map Prod.fst).Nodup)
    (hmem : (owner, checks) ∈ pending)
    (hchk : (checks.map Prod.fst).Nodup)
    (hfr : (f, R) ∈ checks)
    (m : List (String × String)) (hR : jsGet? cf R = some m) :
    ∃ mm, jsGet? (resolveNestedTypeReferences cf pending) owner = some mm ∧
      jsGet? mm f = some ("@" ++ R) := by
  obtain ⟨P1, P2, rfl⟩ := List.append_of_mem hmem
  obtain ⟨C1, C2, rfl⟩ := List.append_of_mem hfr
  unfold resolveNestedTypeReferences
  rw [List.foldl_append, List.foldl_cons]
  have hP2 : ∀ q ∈ P2, q.1 ≠ owner := by
    intro q hq he
    rw [List.map_append, List.map_cons] at hpend
    have h2 := (List.nodup_append.mp hpend).2.1
    have hnot := (List.nodup_cons.mp h2).1
    exact hnot (he ▸ (List.mem_map.mpr ⟨q, hq, rfl⟩))
  rw [foldOwners_other_preserved owner P2 _ hP2]
  have hcf1 : jsHas (P1.foldl resolveOwnerChecks cf) R = true :=
    jsHas_foldOwners R P1 cf (jsHas_of_get_eq_some hR)
  rw [resolveOwnerChecks_split]
  have hcf2 : jsHas (C1.foldl (applyPendingCheck owner)
      (P1.foldl resolveOwnerChecks cf)) R = true :=
    jsHas_foldChecks owner R C1 _ hcf1
  rw [applyPendingCheck_fires owner _ f R hcf2]
  have hC2 : ∀ chk ∈ C2, chk.1 ≠ f := by
    intro chk hc he
    rw [List.map_append, List.map_cons] at hchk
    have h2 := (List.nodup_append.mp hchk).2.1
    have hnot := (List.nodup_cons.mp h2).1
    exact hnot (he ▸ (List.mem_map.mpr ⟨chk, hc, rfl⟩))
  exact foldChecks_entry_preserved owner f ("@" ++ R) C2 _ hC2 _
    (jsGet?_jsSet_self _ _ _) (jsGet?_jsSet_self _ _ _)

/-- Witness for C3: a type `T` with a `Date` field and an owner with a
pending check on `T` gains the nested entry `@T`. -/
theorem c3_witness :
    ((([("Owner", [("f", "T")])] : List (String × List (String × String))).map
        Prod.fst).Nodup ∧
      ("Owner", [("f", "T")]) ∈ ([("Owner", [("f", "T")])] :
        List (String × List (String × String))) ∧
      (([("f", "T")] : List (String × String)).map Prod.fst).Nodup ∧
      ("f", "T") ∈ ([("f", "T")] : List (String × String)) ∧
      jsGet? ([("T", [("x", "Date")])] : List (String × List (String × String))) "T" =
        some [("x", "Date")]) ∧
    ∃ mm, jsGet? (resolveNestedTypeReferences [("T", [("x", "Date")])]
        [("Owner", [("f", "T")])]) "Owner" = some mm ∧
      jsGet? mm "f" = some ("@" ++ "T") :=
  ⟨⟨by decide, by decide, by decide, by decide, by decide⟩,
    c3_nested_codec_propagation [("T", [("x", "Date")])] [("Owner", [("f", "T")])]
      "Owner" [("f", "T")] "f" "T" (by decide) (by decide) (by decide) (by decide)
      [("x", "Date")] (by decide)⟩

/-! C8: last-writer-wins registration. -/

theorem jsHas_iff_mem_keys {β : Type} (m : List (String × β)) (k : String) :
    jsHas m k = true ↔ k ∈ m.map Prod.fst := by
  induction m with
  | nil => simp [jsHas]
  | cons p rest ih =>
    simp only [jsHas, List.any_cons, Bool.or_eq_true, List.map_cons, List.mem_cons,
      decide_eq_true_eq] at ih ⊢
    rw [ih]
    constructor
    · rintro (h | h)
      · exact Or.inl h.symm
      · exact Or.inr h
    · rintro (h | h)
      · exact Or.inl h.symm
      · exact Or.inr h

theorem mem_of_jsGet?_eq_some {β : Type} {m : List (String × β)} {k : String} {v : β}
    (h : jsGet? m k = some v) : (k, v) ∈ m := by
  induction m with
  | nil => cases h
  | cons p rest ih =>
    by_cases hp : p.1 = k
    · rw [jsGet?, if_pos hp] at h
      have hv : p.2 = v := Option.some_inj.mp h
      have hkv : p = (k, v) := Prod.ext hp hv
      rw [← hkv]
      exact List.mem_cons_self _ _
    · rw [jsGet?, if_neg hp] at h
      exact List.mem_cons_of_mem _ (ih h)

theorem mem_upsert_patterns (lst : List RpcMethodMetadata) (md : RpcMethodMetadata)
    (y : String) :
    y ∈ (upsertByPattern lst md).map RpcMethodMetadata.pattern ↔
      y ∈ lst.map RpcMethodMetadata.pattern ∨ y = md.pattern := by
  induction lst with
  | nil => simp [upsertByPattern, eq_comm]
  | cons x rest ih =>
    by_cases hx : x.pattern = md.pattern
    · have hstep : upsertByPattern (x :: rest) md = md :: rest := by
        rw [upsertByPattern, if_pos hx]
      rw [hstep]
      simp only [List.map_cons, List.mem_cons, hx]
      tauto
    · have hstep : upsertByPattern (x :: rest) md = x :: upsertByPattern rest md := by
        rw [upsertByPattern, if_neg hx]
      rw [hstep]
      simp only [List.map_cons, List.mem_cons, ih]
      tauto

theorem upsert_patterns_nodup (lst : List RpcMethodMetadata) (md : RpcMethodMetadata)
    (h : (lst.map RpcMethodMetadata.pattern).Nodup) :
    ((upsertByPattern lst md).map RpcMethodMetadata.pattern).Nodup := by
  induction lst with
  | nil => simp [upsertByPattern]
  | cons x rest ih =>
    rw [List.map_cons, List.nodup_cons] at h
    by_cases hx : x.pattern = md.pattern
    · simp only [upsertByPattern, if_pos hx, List.map_cons, List.nodup_cons]
      exact ⟨hx ▸ h.1, h.2⟩
    · simp only [upsertByPattern, if_neg hx, List.map_cons, List.nodup_cons]
      refine ⟨?_, ih h.2⟩
      rw [mem_upsert_patterns]
      rintro (hmem | hmem)
      · exact h.1 hmem
      · exact hx hmem

theorem upsert_filter_length (lst : List RpcMethodMetadata) (md : RpcMethodMetadata)
    (h : (lst.map RpcMethodMetadata.pattern).Nodup) :
    ((upsertByPattern lst md).filter (fun x => x.pattern == md.pattern)).length = 1 := by
  induction lst with
  | nil => simp [upsertByPattern]
  | cons x rest ih =>
    rw [List.map_cons, List.nodup_cons] at h
    by_cases hx : x.pattern = md.pattern
    · rw [upsertByPattern, if_pos hx]
      have hfil : rest.filter (fun x => x.pattern == md.pattern) = [] := by
        rw [List.filter_eq_nil]
        intro a ha hcontra
        have hap : a.pattern = md.pattern := by simpa using hcontra
        apply h.1
        have hm : a.pattern ∈ rest.map RpcMethodMetadata.pattern :=
          List.mem_map.mpr ⟨a, ha, rfl⟩
        rw [hap] at hm
        rw [hx]
        exact hm
      simp [List.filter_cons, hfil]
    · rw [upsertByPattern, if_neg hx, List.filter_cons]
      have hxf : (x.pattern == md.pattern) = false := by simpa using hx
      simp only [hxf, Bool.false_eq_true, if_false]
      exact ih h.2

theorem filter_values_length (ms : List (String × RpcMethodMetadata)) (p : String)
    (hkv : ∀ q ∈ ms, q.2.pattern = q.1) (hnd : (ms.map Prod.fst).Nodup)
    (hp : p ∈ ms.map Prod.fst) :
    ((ms.map Prod.snd).filter (fun md => md.pattern == p)).length = 1 := by
  induction ms with
  | nil => simp at hp
  | cons q rest ih =>
    rw [List.map_cons, List.nodup_cons] at hnd
    rw [List.map_cons, List.mem_cons] at hp
    rw [List.map_cons, List.filter_cons]
    by_cases hq : q.1 = p
    · have hqp : (q.2.pattern == p) = true := by
        have := hkv q (List.mem_cons_self _ _)
        simp [this, hq]
      simp only [hqp, if_true]
      have hfil : (rest.map Prod.snd).filter (fun md => md.pattern == p) = [] := by
        rw [List.filter_eq_nil]
        intro a ha hcontra
        obtain ⟨e, he, rfl⟩ := List.mem_map.mp ha
        have hkey : e.2.pattern = e.1 := hkv e (List.mem_cons_of_mem _ he)
        have hep : e.2.pattern = p := by simpa using hcontra
        apply hnd.1
        rw [hq, ← hep, hkey]
        exact List.mem_map.mpr ⟨e, he, rfl⟩
      simp [hfil]
    · have hqp : (q.2.pattern == p) = false := by
        have := hkv q (List.mem_cons_self _ _)
        simp [this, hq]
      simp only [hqp, Bool.false_eq_true, if_false]
      rcases hp with hp | hp
      · exact absurd hp.symm hq
      · exact ih (fun e he => hkv e (List.mem_cons_of_mem _ he)) hnd.2 hp

theorem registryWF_empty : registryWF emptyRegistry := by
  refine ⟨?_, ?_, ?_⟩ <;> simp [emptyRegistry]

theorem registryWF_register (r : RpcRegistry) (md : RpcMethodMetadata)
    (h : registryWF r) : registryWF (registerMethod r md) := by
  obtain ⟨hkv, hnd, hmods⟩ := h
  have hmmWF : ∀ q ∈ (if jsHas r.modulesMethods md.module then r.modulesMethods
      else jsSet r.modulesMethods md.module []),
      (q.2.map RpcMethodMetadata.pattern).Nodup := by
    by_cases hh : jsHas r.modulesMethods md.module = true
    · rw [if_pos hh]
      exact hmods
    · rw [if_neg hh]
      intro q hq
      rcases mem_jsSet _ _ _ _ hq with rfl | hq'
      · simp
      · exact hmods q hq'
  refine ⟨?_, ?_, ?_⟩
  · intro q hq
    rcases mem_jsSet _ _ _ _ hq with rfl | hq'
    · rfl
    · exact hkv q hq'
  · show ((jsSet r.methods md.pattern md).map Prod.fst).Nodup
    rcases hh : jsHas r.methods md.pattern with _ | _
    · rw [keys_jsSet_of_not_has _ _ _ hh]
      have hnotin : md.pattern ∉ r.methods.map Prod.fst := by
        intro hmem
        rw [(jsHas_iff_mem_keys _ _).mpr hmem] at hh
        cases hh
      simp [List.nodup_append, hnd, hnotin]
    · rw [keys_jsSet_of_has _ _ _ hh]
      exact hnd
  · intro q hq
    rcases mem_jsSet _ _ _ _ hq with rfl | hq'
    · apply upsert_patterns_nodup
      rcases hg : jsGet? (if jsHas r.modulesMethods md.module then r.modulesMethods
          else jsSet r.modulesMethods md.module []) md.module with _ | l
      · simp
      · rw [Option.getD_some]
        exact hmmWF (md.module, l) (mem_of_jsGet?_eq_some hg)
    · exact hmmWF q hq'

theorem registryWF_registerAll (l : List RpcMethodMetadata) :
    registryWF (registerAll l) := by
  have : ∀ r, registryWF r → registryWF (l.foldl registerMethod r) := by
    induction l with
    | nil => exact fun r h => h
    | cons md l ih =>
      intro r h
      exact ih _ (registryWF_register r md h)
  exact this emptyRegistry registryWF_empty

theorem modulesMethods_ensure_nodup (r : RpcRegistry) (mod : String)
    (hmods : ∀ q ∈ r.modulesMethods, (q.2.map RpcMethodMetadata.pattern).Nodup) :
    ∀ q ∈ (if jsHas r.modulesMethods mod then r.modulesMethods
      else jsSet r.modulesMethods mod []),
      (q.2.map RpcMethodMetadata.pattern).Nodup := by
  by_cases hh : jsHas r.modulesMethods mod = true
  · rw [if_pos hh]
    exact hmods
  · rw [if_neg hh]
    intro q hq
    rcases mem_jsSet _ _ _ _ hq with rfl | hq'
    · simp
    · exact hmods q hq'

theorem getModuleMethods_register_self (r : RpcRegistry) (md : RpcMethodMetadata) :
    getModuleMethods (registerMethod r md) md.module =
      upsertByPattern ((jsGet? (if jsHas r.modulesMethods md.module then r.modulesMethods
        else jsSet r.modulesMethods md.module []) md.module).getD []) md := by
  show (jsGet? (jsSet _ md.module _) md.module).getD [] = _
  rw [jsGet?_jsSet_self, Option.getD_some]

/-- C8: registration is keyed by pattern with last-writer-wins: after
registering `m1` and then `m2` with the same pattern (and module, which the
pattern encodes), looking the pattern up returns `m2`, and both the
collection of all registered methods and the per-module method list contain
exactly one entry for that pattern.  `pre` is an arbitrary earlier
registration history. -/
theorem c8_last_writer_wins (pre : List RpcMethodMetadata) (m1 m2 : RpcMethodMetadata)
    (hp : m1.pattern = m2.pattern) (hm : m1.module = m2.module) :
    getMethod (registerAll (pre ++ [m1, m2])) m2.pattern = some m2 ∧
    ((getAllMethods (registerAll (pre ++ [m1, m2]))).filter
        (fun md => md.pattern == m2.pattern)).length = 1 ∧
    ((getModuleMethods (registerAll (pre ++ [m1, m2])) m2.module).filter
        (fun md => md.pattern == m2.pattern)).length = 1 := by
  have hsplit : registerAll (pre ++ [m1, m2]) =
      registerMethod (registerAll (pre ++ [m1])) m2 := by
    unfold registerAll
    rw [show pre ++ [m1, m2] = (pre ++ [m1]) ++ [m2] by simp]
    rw [List.foldl_append]
    rfl
  rw [hsplit]
  obtain ⟨hkv1, hnd1, hmods1⟩ := registryWF_registerAll (pre ++ [m1])
  refine ⟨?_, ?_, ?_⟩
  · show jsGet? (jsSet (registerAll (pre ++ [m1])).methods m2.pattern m2) m2.pattern
      = some m2
    exact jsGet?_jsSet_self _ _ _
  · obtain ⟨hkv2, hnd2, _⟩ :=
      registryWF_register _ m2 (registryWF_registerAll (pre ++ [m1]))
    apply filter_values_length _ _ hkv2 hnd2
    rw [← jsHas_iff_mem_keys]
    show jsHas (jsSet (registerAll (pre ++ [m1])).methods m2.pattern m2) m2.pattern = true
    rw [jsHas_jsSet]
    simp
  · rw [getModuleMethods_register_self]
    apply upsert_filter_length
    rcases hg : jsGet? (if jsHas (registerAll (pre ++ [m1])).modulesMethods m2.module
        then (registerAll (pre ++ [m1])).modulesMethods
        else jsSet (registerAll (pre ++ [m1])).modulesMethods m2.module [])
        m2.module with _ | l
    · simp
    · rw [Option.getD_some]
      exact modulesMethods_ensure_nodup _ m2.module hmods1 (m2.module, l)
        (mem_of_jsGet?_eq_some hg)

/-- Witness for C8 at two concrete registrations of the pattern
`user.find`. -/
theorem c8_witness :
    (({ pattern := "user.find", module := "user", methodName := "find",
        returnType := none, target := "UserServiceA", propertyKey := "find" } :
          RpcMethodMetadata).pattern =
      ({ pattern := "user.find", module := "user", methodName := "find",
         returnType := none, target := "UserServiceB", propertyKey := "find" } :
          RpcMethodMetadata).pattern ∧
     ({ pattern := "user.find", module := "user", methodName := "find",
        returnType := none, target := "UserServiceA", propertyKey := "find" } :
          RpcMethodMetadata).module =
      ({ pattern := "user.find", module := "user", methodName := "find",
         returnType := none, target := "UserServiceB", propertyKey := "find" } :
          RpcMethodMetadata).module) ∧
    (getMethod (registerAll ([] ++
        [{ pattern := "user.find", module := "user", methodName := "find",
           returnType := none, target := "UserServiceA", propertyKey := "find" },
         { pattern := "user.find", module := "user", methodName := "find",
           returnType := none, target := "UserServiceB", propertyKey := "find" }]))
        "user.find" =
      some { pattern := "user.find", module := "user", methodName := "find",
             returnType := none, target := "UserServiceB", propertyKey := "find" } ∧
     ((getAllMethods (registerAll ([] ++
        [{ pattern := "user.find", module := "user", methodName := "find",
           returnType := none, target := "UserServiceA", propertyKey := "find" },
         { pattern := "user.find", module := "user", methodName := "find",
           returnType := none, target := "UserServiceB", propertyKey := "find" }]))).filter
          (fun md => md.pattern == "user.find")).length = 1 ∧
     ((getModuleMethods (registerAll ([] ++
        [{ pattern := "user.find", module := "user", methodName := "find",
           returnType := none, target := "UserServiceA", propertyKey := "find" },
         { pattern := "user.find", module := "user", methodName := "find",
           returnType := none, target := "UserServiceB", propertyKey := "find" }]))
        "user").filter (fun md => md.pattern == "user.find")).length = 1) :=
  ⟨⟨rfl, rfl⟩,
    c8_last_writer_wins []
      { pattern := "user.find", module := "user", methodName := "find",
        returnType := none, target := "UserServiceA", propertyKey := "find" }
      { pattern := "user.find", module := "user", methodName := "find",
        returnType := none, target := "UserServiceB", propertyKey := "find" }
      rfl rfl⟩

/-! C2: codec detection and field rewriting. -/

theorem getCodecForType_eq (t : String) :
    getCodecForType t =
      if dateCodecCond t then
        some ⟨"Date", wordBoundaryReplace t "Date" "string"⟩
      else none := by
  unfold getCodecForType codecMappings
  rw [codecLookup]
  rw [show ("Date" ++ "|" : String) = "Date|" from rfl,
      show ("|" ++ "Date" : String) = "|Date" from rfl]
  by_cases h : dateCodecCond t
  · have hb : (decide (stripJsSpaces t = "Date")
        || chContainsSub (stripJsSpaces t).toList "Date|".toList
        || chContainsSub (stripJsSpaces t).toList "|Date".toList) = true := by
      rcases h with h | h | h
      · simp only [decide_eq_true h, Bool.true_or]
      · simp only [h, Bool.or_true, Bool.true_or]
      · simp only [h, Bool.or_true]
    rw [if_pos hb, if_pos h]
  · have h1 : ¬ stripJsSpaces t = "Date" := fun hh => h (Or.inl hh)
    have h2 : chContainsSub (stripJsSpaces t).toList "Date|".toList = false := by
      rcases hx : chContainsSub (stripJsSpaces t).toList "Date|".toList with _ | _
      · rfl
      · exact absurd (Or.inr (Or.inl hx)) h
    have h3 : chContainsSub (stripJsSpaces t).toList "|Date".toList = false := by
      rcases hx : chContainsSub (stripJsSpaces t).toList "|Date".toList with _ | _
      · rfl
      · exact absurd (Or.inr (Or.inr hx)) h
    have hb : ¬ ((decide (stripJsSpaces t = "Date")
        || chContainsSub (stripJsSpaces t).toList "Date|".toList
        || chContainsSub (stripJsSpaces t).toList "|Date".toList) = true) := by
      rw [decide_eq_false h1, h2, h3]
      simp
    rw [if_neg hb, if_neg h]
    rw [codecLookup]

theorem processProp_codec_other (acc : ClassPropsResult) (q : PropDecl) (k : String)
    (hne : q.name ≠ k) :
    jsGet? (processProp acc q).codecFields k = jsGet? acc.codecFields k := by
  unfold processProp
  rcases getCodecForType (propTypeText q) with _ | ci
  · rfl
  · exact jsGet?_jsSet_ne _ _ _ _ (Ne.symm hne)

theorem processProp_has_other (acc : ClassPropsResult) (q : PropDecl) (k : String)
    (hne : q.name ≠ k) :
    jsHas (processProp acc q).codecFields k = jsHas acc.codecFields k := by
  rw [jsHas_eq_isSome, jsHas_eq_isSome, processProp_codec_other acc q k hne]

theorem processProp_lines_mono (acc : ClassPropsResult) (q : PropDecl) (l : String)
    (h : l ∈ acc.lines) : l ∈ (processProp acc q).lines := by
  unfold processProp
  rcases getCodecForType (propTypeText q) with _ | ci
  · simp [h]
  · simp [h]

theorem foldProps_codec_other (L : List PropDecl) (acc : ClassPropsResult) (k : String)
    (hL : ∀ q ∈ L, q.name ≠ k) :
    jsGet? ((L.foldl processProp acc).codecFields) k = jsGet? acc.codecFields k := by
  induction L generalizing acc with
  | nil => rfl
  | cons q L ih =>
    rw [List.foldl_cons, ih _ (fun r hr => hL r (List.mem_cons_of_mem _ hr))]
    exact processProp_codec_other acc q k (hL q (List.mem_cons_self _ _))

theorem foldProps_lines_mono (L : List PropDecl) (acc : ClassPropsResult) (l : String)
    (h : l ∈ acc.lines) : l ∈ (L.foldl processProp acc).lines := by
  induction L generalizing acc with
  | nil => exact h
  | cons q L ih =>
    exact ih _ (processProp_lines_mono acc q l h)

theorem processProps_field_spec (L : List PropDecl) (acc : ClassPropsResult)
    (p : PropDecl) (hmem : p ∈ L) (hnd : (L.map PropDecl.name).Nodup)
    (hnot : jsHas acc.codecFields p.name = false) :
    (jsHas ((L.foldl processProp acc).codecFields) p.name = true ↔
      dateCodecCond (propTypeText p)) ∧
    (dateCodecCond (propTypeText p) →
      jsGet? ((L.foldl processProp acc).codecFields) p.name = some "Date" ∧
      propLine p (wordBoundaryReplace (propTypeText p) "Date" "string") ∈
        (L.foldl processProp acc).lines) := by
  induction L generalizing acc with
  | nil => cases hmem
  | cons q L ih =>
    rw [List.map_cons, List.nodup_cons] at hnd
    rcases List.mem_cons.mp hmem with rfl | hmem'
    · -- the property itself is processed first
      have hQ : ∀ r ∈ L, r.name ≠ p.name := by
        intro r hr he
        exact hnd.1 (he ▸ List.mem_map.mpr ⟨r, hr, rfl⟩)
      rw [List.foldl_cons]
      by_cases hcond : dateCodecCond (propTypeText p)
      · have hstep : processProp acc p =
            { lines := acc.lines ++ [propLine p (wordBoundaryReplace (propTypeText p)
                "Date" "string")],
              codecFields := jsSet acc.codecFields p.name "Date",
              pending := acc.pending } := by
          unfold processProp
          rw [getCodecForType_eq, if_pos hcond]
        rw [hstep]
        have hget : jsGet? ((L.foldl processProp
            { lines := acc.lines ++ [propLine p (wordBoundaryReplace (propTypeText p)
                "Date" "string")],
              codecFields := jsSet acc.codecFields p.name "Date",
              pending := acc.pending }).codecFields) p.name = some "Date" := by
          rw [foldProps_codec_other L _ p.name hQ]
          exact jsGet?_jsSet_self _ _ _
        refine ⟨⟨fun _ => hcond, fun _ => jsHas_of_get_eq_some hget⟩, fun _ => ⟨hget, ?_⟩⟩
        apply foldProps_lines_mono
        simp
      · have hstep : processProp acc p =
            { lines := acc.lines ++ [propLine p (propTypeText p)],
              codecFields := acc.codecFields,
              pending := match extractMainTypeName (propTypeText p) with
                | some et => if isBuiltInType et then acc.pending
                             else acc.pending ++ [(p.name, et)]
                | none => acc.pending } := by
          unfold processProp
          rw [getCodecForType_eq, if_neg hcond]
        rw [hstep]
        have hget : jsGet? ((L.foldl processProp
            { lines := acc.lines ++ [propLine p (propTypeText p)],
              codecFields := acc.codecFields,
              pending := match extractMainTypeName (propTypeText p) with
                | some et => if isBuiltInType et then acc.pending
                             else acc.pending ++ [(p.name, et)]
                | none => acc.pending }).codecFields) p.name =
            jsGet? acc.codecFields p.name := foldProps_codec_other L _ p.name hQ
        constructor
        · constructor
          · intro hhas
            exfalso
            rw [jsHas_eq_isSome, hget, ← jsHas_eq_isSome, hnot] at hhas
            cases hhas
          · intro hc
            exact absurd hc hcond
        · intro hc
          exact absurd hc hcond
    · -- the property sits further down the list
      rw [List.foldl_cons]
      have hqp : q.name ≠ p.name := by
        intro he
        exact hnd.1 (he ▸ List.mem_map.mpr ⟨p, hmem', rfl⟩)
      have hnot' : jsHas (processProp acc q).codecFields p.name = false := by
        rw [processProp_has_other acc q p.name hqp]
        exact hnot
      exact ih _ hmem' hnd.2 hnot'

/-- C2 amended: for every extracted (non-private) DTO-class field, a codec
entry is recorded exactly when the whitespace-stripped declared type text
equals `Date` or contains `Date|` or `|Date` as a substring (this covers
every union having `Date` as a member, but also types such as
`MyDate | null` whose member names merely end or begin next to a `|`); when
it fires, the entry maps the field to `Date` and the emitted field line
carries the declared text with word-bounded `Date` replaced by `string`,
preserving the union shape. -/
theorem c2_amended_codec_detection (props : List PropDecl) (p : PropDecl) (t : String)
    (hnd : ((props.filter (fun q => !q.isPrivate)).map PropDecl.name).Nodup)
    (hmem : p ∈ props) (hpriv : p.isPrivate = false) (ht : propTypeText p = t) :
    (jsHas (processClassProps props).codecFields p.name = true ↔ dateCodecCond t) ∧
    (dateCodecCond t →
      jsGet? (processClassProps props).codecFields p.name = some "Date" ∧
      propLine p (wordBoundaryReplace t "Date" "string") ∈
        (processClassProps props).lines) := by
  subst ht
  have hmemf : p ∈ props.filter (fun q => !q.isPrivate) :=
    List.mem_filter.mpr ⟨hmem, by simp [hpriv]⟩
  exact processProps_field_spec _ ⟨[], [], []⟩ p hmemf hnd (by rfl)

/-- Counterexample to C2 as stated: the field type `MyDate | null` is
neither `Date` nor a union having `Date` as a member, yet the extractor
records a `Date` codec entry for it (the substring test matches the tail of
`MyDate`); its emitted text is left unchanged. -/
theorem c2_counterexample :
    specDateUnioned "MyDate | null" = false ∧
    getCodecForType "MyDate | null" =
      some { codecName := "Date", wireType := "MyDate | null" } ∧
    (processClassProps [{ name := "when", typeNodeText := some "MyDate | null" }]).codecFields
      = [("when", "Date")] := by
  refine ⟨by decide, by decide, by decide⟩

/-- Witness for C2 amended: a field typed `Date | null` is emitted as
`string | null` with the codec entry `createdAt ↦ Date`. -/
theorem c2_witness :
    ((([{ name := "createdAt", typeNodeText := some "Date | null" }] :
        List PropDecl).filter (fun q => !q.isPrivate)).map PropDecl.name).Nodup ∧
    ({ name := "createdAt", typeNodeText := some "Date | null" } : PropDecl) ∈
      ([{ name := "createdAt", typeNodeText := some "Date | null" }] : List PropDecl) ∧
    propTypeText { name := "createdAt", typeNodeText := some "Date | null" } =
      "Date | null" ∧
    wordBoundaryReplace "Date | null" "Date" "string" = "string | null" ∧
    (jsGet? (processClassProps
        [{ name := "createdAt", typeNodeText := some "Date | null" }]).codecFields
        "createdAt" = some "Date" ∧
     propLine { name := "createdAt", typeNodeText := some "Date | null" }
        (wordBoundaryReplace "Date | null" "Date" "string") ∈
       (processClassProps
         [{ name := "createdAt", typeNodeText := some "Date | null" }]).lines) :=
  ⟨by decide, by decide, by decide, by decide,
    (c2_amended_codec_detection
        [{ name := "createdAt", typeNodeText := some "Date | null" }]
        { name := "createdAt", typeNodeText := some "Date | null" }
        "Date | null" (by decide) (by decide) (by decide) (by decide)).2
      (by decide)⟩

/-! Lemmas for Kahn's algorithm (C1, C10): characterizations of the
dependency map, the type map, the in-degree map and the initial queue
under pairwise-distinct type names. -/

theorem jsGet?_foldl_preserve {β γ : Type} (f : List (String × β) → γ → List (String × β))
    (L : List γ) (init : List (String × β)) (n : String)
    (hf : ∀ m x, x ∈ L → jsGet? (f m x) n = jsGet? m n) :
    jsGet? (L.foldl f init) n = jsGet? init n := by
  induction L generalizing init with
  | nil => rfl
  | cons x rest ih =>
    rw [List.foldl_cons, ih _ (fun m y hy => hf m y (List.mem_cons_of_mem _ hy)),
      hf init x (List.mem_cons_self _ _)]

theorem jsGet?_foldl_jsSet_mem {β γ : Type} (key : γ → String) (g : γ → β)
    (L : List γ) (init : List (String × β)) (hN : (L.map key).Nodup)
    (t : γ) (ht : t ∈ L) :
    jsGet? (L.foldl (fun m x => jsSet m (key x) (g x)) init) (key t) = some (g t) := by
  obtain ⟨l1, l2, rfl⟩ := List.append_of_mem ht
  rw [List.foldl_append, List.foldl_cons]
  rw [List.map_append, List.map_cons, List.nodup_append] at hN
  have hnotin : key t ∉ l2.map key := (List.nodup_cons.mp hN.2.1).1
  rw [jsGet?_foldl_preserve _ l2 _ (key t)
      (fun m x hx => jsGet?_jsSet_ne m (key x) (key t) (g x)
        (fun he => hnotin (show key t ∈ l2.map key from
          he ▸ List.mem_map.mpr ⟨x, hx, rfl⟩))),
    jsGet?_jsSet_self]

theorem jsGet?_foldl_jsSet_mem_str {β : Type} (g : String → β)
    (L : List String) (init : List (String × β)) (hN : L.Nodup)
    (n : String) (hn : n ∈ L) :
    jsGet? (L.foldl (fun m x => jsSet m x (g x)) init) n = some (g n) := by
  obtain ⟨l1, l2, rfl⟩ := List.append_of_mem hn
  rw [List.foldl_append, List.foldl_cons]
  rw [List.nodup_append] at hN
  have hnotin : n ∉ l2 := (List.nodup_cons.mp hN.2.1).1
  rw [jsGet?_foldl_preserve _ l2 _ n
      (fun m x hx => jsGet?_jsSet_ne m x n (g x)
        (fun he => hnotin (show n ∈ l2 from he ▸ hx))),
    jsGet?_jsSet_self]

theorem typeNamesOf_eq_namesOf (types : List InterfaceDefinition)
    (hN : (namesOf types).Nodup) : typeNamesOf types = namesOf types :=
  dedupeKeepFirst_eq_self hN

theorem mem_typeNamesOf {types : List InterfaceDefinition} {n : String} :
    n ∈ typeNamesOf types ↔ n ∈ namesOf types :=
  mem_dedupeKeepFirst

theorem depsMap_get (types : List InterfaceDefinition) (generics : List String)
    (hN : (namesOf types).Nodup) {n : String} (hn : n ∈ namesOf types) :
    jsGet? (depsMapOf types generics) n = some (depsOf types generics n) := by
  obtain ⟨t, ht, rfl⟩ := List.mem_map.mp hn
  have h : jsGet? (depsMapOf types generics) t.name
      = some (interfaceDeps (typeNamesOf types) generics t) :=
    jsGet?_foldl_jsSet_mem InterfaceDefinition.name
      (fun x => interfaceDeps (typeNamesOf types) generics x) types []
      (show (types.map InterfaceDefinition.name).Nodup from hN) t ht
  rw [h]
  unfold depsOf
  rw [h]
  rfl

theorem typeMap_get (types : List InterfaceDefinition)
    (hN : (namesOf types).Nodup) {n : String} (hn : n ∈ namesOf types) :
    ∃ t ∈ types, t.name = n ∧ jsGet? (typeMapOf types) n = some t := by
  obtain ⟨t, ht, rfl⟩ := List.mem_map.mp hn
  exact ⟨t, ht, rfl,
    jsGet?_foldl_jsSet_mem InterfaceDefinition.name (fun x => x) types []
      (show (types.map InterfaceDefinition.name).Nodup from hN) t ht⟩

theorem inDeg0_get (types : List InterfaceDefinition) (generics : List String)
    (hN : (namesOf types).Nodup) {n : String} (hn : n ∈ namesOf types) :
    jsGet? (inDeg0Of types generics) n
      = some ((depsOf types generics n).length : Int) :=
  jsGet?_foldl_jsSet_mem_str (fun x => ((depsOf types generics x).length : Int))
    (typeNamesOf types) [] (dedupeKeepFirst_nodup _) n (mem_typeNamesOf.mpr hn)

theorem jsSet_eq_append {β : Type} (m : List (String × β)) (k : String) (v : β)
    (h : jsHas m k = false) : jsSet m k v = m ++ [(k, v)] := by
  induction m with
  | nil => rfl
  | cons p rest ih =>
    have hp : ¬ p.1 = k := by
      intro hh
      simp [jsHas, hh] at h
    have h' : jsHas rest k = false := by
      simp only [jsHas, List.any_cons, Bool.or_eq_false_iff] at h
      exact h.2
    simp [jsSet, hp, ih h']

theorem foldl_jsSet_eq_map_aux {β : Type} (g : String → β) (L : List String)
    (init : List (String × β)) (hN : L.Nodup)
    (hd : ∀ x ∈ L, jsHas init x = false) :
    L.foldl (fun m x => jsSet m x (g x)) init = init ++ L.map (fun x => (x, g x)) := by
  induction L generalizing init with
  | nil => simp
  | cons x rest ih =>
    have hd2 : ∀ y ∈ rest, jsHas (init ++ [(x, g x)]) y = false := by
      intro y hy
      have h1 : jsHas init y = false := hd y (List.mem_cons_of_mem _ hy)
      have h2 : ¬ x = y :=
        fun he => (List.nodup_cons.mp hN).1 (show x ∈ rest from he ▸ hy)
      simp only [jsHas, List.any_append, List.any_cons, List.any_nil] at h1 ⊢
      simp [h1, h2]
    rw [List.foldl_cons, jsSet_eq_append init x (g x) (hd x (List.mem_cons_self _ _)),
      ih (init ++ [(x, g x)]) (List.nodup_cons.mp hN).2 hd2]
    simp

theorem inDeg0_entries (types : List InterfaceDefinition) (generics : List String)
    (hN : (namesOf types).Nodup) :
    inDeg0Of types generics =
      (namesOf types).map
        (fun n => (n, ((depsOf types generics n).length : Int))) := by
  have h := foldl_jsSet_eq_map_aux
    (fun x => ((depsOf types generics x).length : Int)) (typeNamesOf types) []
    (dedupeKeepFirst_nodup _) (fun x _ => rfl)
  rw [typeNamesOf_eq_namesOf types hN] at h
  simpa [inDeg0Of, typeNamesOf_eq_namesOf types hN] using h

theorem foldl_pushZero (l : List (String × Int)) (q0 : List String) :
    l.foldl (fun q p => if p.2 = 0 then q ++ [p.1] else q) q0 =
      q0 ++ (l.filter (fun p => p.2 = 0)).map Prod.fst := by
  induction l generalizing q0 with
  | nil => simp
  | cons p rest ih =>
    rw [List.foldl_cons, ih]
    by_cases hp : p.2 = 0
    · simp [List.filter_cons, hp]
    · simp [List.filter_cons, hp]

theorem map_filter_deg (types : List InterfaceDefinition) (generics : List String)
    (L : List String) :
    ((L.map (fun n => (n, ((depsOf types generics n).length : Int)))).filter
        (fun p => p.2 = 0)).map Prod.fst =
      L.filter (fun n => ((depsOf types generics n).length : Int) = 0) := by
  induction L with
  | nil => rfl
  | cons x rest ih =>
    by_cases hx : ((depsOf types generics x).length : Int) = 0
    · have hnil : depsOf types generics x = [] :=
        List.length_eq_zero.mp (by exact_mod_cast hx)
      simp [List.filter_cons, hx, ih, hnil]
    · have hnnil : ¬ depsOf types generics x = [] := by
        intro hh
        exact hx (by simp [hh])
      simp [List.filter_cons, hx, ih, hnnil]

theorem queue0_eq (types : List InterfaceDefinition) (generics : List String)
    (hN : (namesOf types).Nodup) :
    queue0Of types generics =
      (namesOf types).filter
        (fun n => ((depsOf types generics n).length : Int) = 0) := by
  unfold queue0Of
  rw [inDeg0_entries types generics hN, foldl_pushZero, List.nil_append,
    map_filter_deg]

theorem queue0_mem (types : List InterfaceDefinition) (generics : List String)
    (hN : (namesOf types).Nodup) {n : String} (hn : n ∈ queue0Of types generics) :
    n ∈ namesOf types ∧ depsOf types generics n = [] := by
  rw [queue0_eq types generics hN] at hn
  have h := List.mem_filter.mp hn
  refine ⟨h.1, ?_⟩
  have h2 : ((depsOf types generics n).length : Int) = 0 := by simpa using h.2
  have h3 : (depsOf types generics n).length = 0 := by exact_mod_cast h2
  exact List.length_eq_zero.mp h3

/-! Properties of the per-type dependency lists. -/

theorem depsOf_spec (types : List InterfaceDefinition) (generics : List String)
    (hN : (namesOf types).Nodup) {t : InterfaceDefinition} (ht : t ∈ types) :
    depsOf types generics t.name = interfaceDeps (typeNamesOf types) generics t := by
  have h : jsGet? (depsMapOf types generics) t.name
      = some (interfaceDeps (typeNamesOf types) generics t) :=
    jsGet?_foldl_jsSet_mem InterfaceDefinition.name
      (fun x => interfaceDeps (typeNamesOf types) generics x) types []
      (show (types.map InterfaceDefinition.name).Nodup from hN) t ht
  unfold depsOf
  rw [h]
  rfl

theorem depsOf_nodup (types : List InterfaceDefinition) (generics : List String)
    (hN : (namesOf types).Nodup) {n : String} (hn : n ∈ namesOf types) :
    (depsOf types generics n).Nodup := by
  obtain ⟨t, ht, rfl⟩ := List.mem_map.mp hn
  rw [depsOf_spec types generics hN ht]
  exact (dedupeKeepFirst_nodup _).filter _

theorem depsOf_sub (types : List InterfaceDefinition) (generics : List String)
    (hN : (namesOf types).Nodup) {n : String} (hn : n ∈ namesOf types) :
    ∀ b ∈ depsOf types generics n, b ∈ namesOf types := by
  obtain ⟨t, ht, rfl⟩ := List.mem_map.mp hn
  rw [depsOf_spec types generics hN ht]
  intro b hb
  have h := List.of_mem_filter hb
  simp only [Bool.and_eq_true] at h
  exact mem_typeNamesOf.mp (by simpa using h.1.1)

theorem depsOf_not_self (types : List InterfaceDefinition) (generics : List String)
    (hN : (namesOf types).Nodup) {n : String} (hn : n ∈ namesOf types) :
    n ∉ depsOf types generics n := by
  obtain ⟨t, ht, rfl⟩ := List.mem_map.mp hn
  rw [depsOf_spec types generics hN ht]
  intro hb
  have h := List.of_mem_filter hb
  simp at h

/-! Counting emitted dependencies: how the filter length in `degExpr`
changes when one more name is appended to the emitted set. -/

theorem contains_append_one (S : List String) (a d : String) :
    (S ++ [a]).contains d = (S.contains d || decide (d = a)) := by
  by_cases h1 : d ∈ S
  · rw [contains_eq_true_of_mem h1,
      contains_eq_true_of_mem (List.mem_append_left _ h1)]
    simp
  · by_cases h2 : d = a
    · subst h2
      rw [contains_eq_true_of_mem (List.mem_append_right _ (by simp)),
        contains_eq_false_of_not_mem h1]
      simp
    · have h3 : d ∉ S ++ [a] := by
        intro hm
        rcases List.mem_append.mp hm with hm | hm
        · exact h1 hm
        · exact h2 (by simpa using hm)
      rw [contains_eq_false_of_not_mem h3, contains_eq_false_of_not_mem h1]
      simp [h2]

theorem filter_contains_append_one_mem (l S : List String) (a : String)
    (hnd : l.Nodup) (ha : a ∈ l) (hS : a ∉ S) :
    (l.filter (fun d => (S ++ [a]).contains d)).length =
      (l.filter (fun d => S.contains d)).length + 1 := by
  induction l with
  | nil => cases ha
  | cons x rest ih =>
    rcases List.mem_cons.mp ha with rfl | ha2
    · have hxrest : a ∉ rest := (List.nodup_cons.mp hnd).1
      have hfeq : rest.filter (fun d => (S ++ [a]).contains d)
          = rest.filter (fun d => S.contains d) := by
        apply List.filter_congr
        intro d hd
        rw [contains_append_one]
        have hdx : ¬ d = a := fun he => hxrest (he ▸ hd)
        simp [hdx]
      have hTx : (S ++ [a]).contains a = true :=
        contains_eq_true_of_mem (List.mem_append_right _ (by simp))
      have hSx : S.contains a = false := contains_eq_false_of_not_mem hS
      rw [List.filter_cons, List.filter_cons, hTx, hSx, hfeq]
      simp
    · have hxa : ¬ x = a := fun he => (List.nodup_cons.mp hnd).1 (he ▸ ha2)
      have hx1 : (S ++ [a]).contains x = S.contains x := by
        rw [contains_append_one]
        simp [hxa]
      rw [List.filter_cons, List.filter_cons, hx1]
      by_cases hc : S.contains x = true
      · rw [if_pos hc, if_pos hc]
        simp only [List.length_cons, ih (List.nodup_cons.mp hnd).2 ha2]
      · rw [if_neg hc, if_neg hc]
        exact ih (List.nodup_cons.mp hnd).2 ha2

theorem filter_contains_append_one_not_mem (l S : List String) (a : String)
    (ha : a ∉ l) :
    l.filter (fun d => (S ++ [a]).contains d) = l.filter (fun d => S.contains d) := by
  apply List.filter_congr
  intro d hd
  rw [contains_append_one]
  have hdx : ¬ d = a := fun he => ha (he ▸ hd)
  simp [hdx]

/-- Appending a newly emitted name `a` to the emitted set decrements the
tracked degree of exactly the nodes that depend on `a`. -/
theorem degExpr_append (types : List InterfaceDefinition) (generics : List String)
    (hN : (namesOf types).Nodup) (S : List String) (a : String)
    (haS : a ∉ S) {n : String} (hn : n ∈ namesOf types) :
    degExpr types generics (S ++ [a]) n =
      if a ∈ depsOf types generics n then degExpr types generics S n - 1
      else degExpr types generics S n := by
  by_cases hmem : a ∈ depsOf types generics n
  · rw [if_pos hmem]
    unfold degExpr
    rw [filter_contains_append_one_mem _ S a (depsOf_nodup types generics hN hn) hmem haS]
    push_cast
    ring
  · rw [if_neg hmem]
    unfold degExpr
    rw [filter_contains_append_one_not_mem _ S a hmem]

/-! The inner `typeNames.forEach` decrement pass of `kahnLoop`, characterized
as an update of the tracked degree function together with an append of the
newly zeroed names to the queue. -/

theorem kahnDecrement_eq (types : List InterfaceDefinition) (generics : List String)
    (hN : (namesOf types).Nodup) (name : String)
    (inDeg : List (String × Int)) (q : List String) {dn : String}
    (hdn : dn ∈ namesOf types) :
    kahnDecrement (depsMapOf types generics) name (inDeg, q) dn =
      if name ∈ depsOf types generics dn then
        (jsSet inDeg dn (((jsGet? inDeg dn).getD 1) - 1),
         if ((jsGet? inDeg dn).getD 1) - 1 = 0 then q ++ [dn] else q)
      else (inDeg, q) := by
  have hget : jsGet? (depsMapOf types generics) dn = some (depsOf types generics dn) :=
    depsMap_get types generics hN hdn
  unfold kahnDecrement
  simp only [hget]
  by_cases hm : name ∈ depsOf types generics dn
  · simp [contains_eq_true_of_mem hm, hm]
  · simp [contains_eq_false_of_not_mem hm, hm]

theorem kahnDecrement_foldl (types : List InterfaceDefinition) (generics : List String)
    (hN : (namesOf types).Nodup) (name : String) :
    ∀ (L : List String), (∀ x ∈ L, x ∈ namesOf types) → L.Nodup →
    ∀ (f : String → Int) (inDeg : List (String × Int)) (q : List String),
      (∀ n ∈ namesOf types, jsGet? inDeg n = some (f n)) →
      (∀ n ∈ namesOf types,
        jsGet? (L.foldl (kahnDecrement (depsMapOf types generics) name) (inDeg, q)).1 n =
          some (if n ∈ L ∧ name ∈ depsOf types generics n then f n - 1 else f n)) ∧
      (L.foldl (kahnDecrement (depsMapOf types generics) name) (inDeg, q)).2 =
        q ++ L.filter (fun dn =>
          decide (name ∈ depsOf types generics dn) && decide (f dn - 1 = 0)) := by
  intro L
  induction L with
  | nil =>
    intro _ _ f inDeg q hdeg
    refine ⟨fun n hn => ?_, by simp⟩
    simp only [List.foldl_nil]
    rw [hdeg n hn]
    simp
  | cons dn L ih =>
    intro hLsub hLnd f inDeg q hdeg
    have hdn : dn ∈ namesOf types := hLsub dn (List.mem_cons_self _ _)
    have hdnL : dn ∉ L := (List.nodup_cons.mp hLnd).1
    have hstep := kahnDecrement_eq types generics hN name inDeg q hdn
    rw [hdeg dn hdn] at hstep
    simp only [Option.getD_some] at hstep
    have hLsub2 : ∀ x ∈ L, x ∈ namesOf types :=
      fun x hx => hLsub x (List.mem_cons_of_mem _ hx)
    have hLnd2 : L.Nodup := (List.nodup_cons.mp hLnd).2
    by_cases hm : name ∈ depsOf types generics dn
    · rw [if_pos hm] at hstep
      have hdeg2 : ∀ n ∈ namesOf types,
          jsGet? (jsSet inDeg dn (f dn - 1)) n =
            some (if n = dn then f dn - 1 else f n) := by
        intro n hn
        rw [jsGet?_jsSet]
        by_cases hcase : n = dn
        · rw [if_pos hcase, if_pos hcase]
        · rw [if_neg hcase, if_neg hcase, hdeg n hn]
      obtain ⟨ihdeg, ihq⟩ := ih hLsub2 hLnd2 (fun n => if n = dn then f dn - 1 else f n)
        (jsSet inDeg dn (f dn - 1))
        (if f dn - 1 = 0 then q ++ [dn] else q) hdeg2
      constructor
      · intro n hn
        rw [List.foldl_cons, hstep, ihdeg n hn]
        by_cases hcase : n = dn
        · subst hcase
          have h1 : ¬ (n ∈ L ∧ name ∈ depsOf types generics n) :=
            fun hc => hdnL hc.1
          have h2 : n ∈ n :: L ∧ name ∈ depsOf types generics n :=
            ⟨List.mem_cons_self _ _, hm⟩
          rw [if_neg h1, if_pos h2, if_pos rfl]
        · have h1 : (n ∈ L ∧ name ∈ depsOf types generics n) ↔
              (n ∈ dn :: L ∧ name ∈ depsOf types generics n) := by
            constructor
            · exact fun hc => ⟨List.mem_cons_of_mem _ hc.1, hc.2⟩
            · exact fun hc => ⟨(List.mem_cons.mp hc.1).resolve_left hcase, hc.2⟩
          rw [if_neg hcase]
          by_cases hc2 : n ∈ dn :: L ∧ name ∈ depsOf types generics n
          · rw [if_pos hc2, if_pos (h1.mpr hc2)]
          · rw [if_neg hc2, if_neg (fun hc => hc2 (h1.mp hc))]
      · rw [List.foldl_cons, hstep, ihq]
        have hfeq : L.filter (fun dn' =>
              decide (name ∈ depsOf types generics dn') &&
              decide ((if dn' = dn then f dn - 1 else f dn') - 1 = 0)) =
            L.filter (fun dn' =>
              decide (name ∈ depsOf types generics dn') &&
              decide (f dn' - 1 = 0)) := by
          apply List.filter_congr
          intro x hx
          have hxdn : ¬ x = dn := fun he => hdnL (he ▸ hx)
          rw [if_neg hxdn]
        rw [hfeq, List.filter_cons]
        by_cases hz : f dn - 1 = 0
        · rw [if_pos hz]
          have hcond : (decide (name ∈ depsOf types generics dn) &&
              decide (f dn - 1 = 0)) = true := by
            rw [decide_eq_true hm, decide_eq_true hz]
            rfl
          rw [hcond]
          simp
        · rw [if_neg hz]
          have hcond : (decide (name ∈ depsOf types generics dn) &&
              decide (f dn - 1 = 0)) = false := by
            rw [decide_eq_true hm, decide_eq_false hz]
            rfl
          rw [hcond]
          simp
    · rw [if_neg hm] at hstep
      obtain ⟨ihdeg, ihq⟩ := ih hLsub2 hLnd2 f inDeg q hdeg
      constructor
      · intro n hn
        rw [List.foldl_cons, hstep, ihdeg n hn]
        by_cases hcase : n = dn
        · subst hcase
          have h1 : ¬ (n ∈ L ∧ name ∈ depsOf types generics n) :=
            fun hc => hm hc.2
          have h2 : ¬ (n ∈ n :: L ∧ name ∈ depsOf types generics n) :=
            fun hc => hm hc.2
          rw [if_neg h1, if_neg h2]
        · have h1 : (n ∈ L ∧ name ∈ depsOf types generics n) ↔
              (n ∈ dn :: L ∧ name ∈ depsOf types generics n) := by
            constructor
            · exact fun hc => ⟨List.mem_cons_of_mem _ hc.1, hc.2⟩
            · exact fun hc => ⟨(List.mem_cons.mp hc.1).resolve_left hcase, hc.2⟩
          by_cases hc2 : n ∈ dn :: L ∧ name ∈ depsOf types generics n
          · rw [if_pos hc2, if_pos (h1.mpr hc2)]
          · rw [if_neg hc2, if_neg (fun hc => hc2 (h1.mp hc))]
      · rw [List.foldl_cons, hstep, ihq, List.filter_cons]
        have hcond : (decide (name ∈ depsOf types generics dn) &&
            decide (f dn - 1 = 0)) = false := by
          rw [decide_eq_false hm]
          rfl
        rw [hcond]
        simp

/-! The `kahnLoop` invariant: ordering facts about the emitted prefix. -/

theorem deps_sub_of_sorted (types : List InterfaceDefinition) (generics : List String)
    {sorted : List InterfaceDefinition} (hord : depsPrecede types generics sorted)
    {dn : String} (h : dn ∈ namesOf sorted) :
    ∀ b ∈ depsOf types generics dn, b ∈ namesOf sorted := by
  obtain ⟨t, ht, rfl⟩ := List.mem_map.mp h
  obtain ⟨⟨i, hi⟩, hget⟩ := List.mem_iff_get.mp ht
  intro b hb
  rw [← hget] at hb
  have h2 := hord i hi b hb
  obtain ⟨u, hu, rfl⟩ := List.mem_map.mp h2
  exact List.mem_map.mpr ⟨u, List.take_subset _ _ hu, rfl⟩

theorem depsPrecede_append (types : List InterfaceDefinition) (generics : List String)
    {sorted : List InterfaceDefinition} (hord : depsPrecede types generics sorted)
    (t0 : InterfaceDefinition)
    (hdeps : ∀ b ∈ depsOf types generics t0.name, b ∈ namesOf sorted) :
    depsPrecede types generics (sorted ++ [t0]) := by
  intro i hi b hb
  by_cases hlt : i < sorted.length
  · have hget : (sorted ++ [t0]).get ⟨i, hi⟩ = sorted.get ⟨i, hlt⟩ :=
      List.get_append i hlt
    rw [hget] at hb
    rw [List.take_append_of_le_length (Nat.le_of_lt hlt)]
    exact hord i hlt b hb
  · have hlen : i = sorted.length := by
      rw [List.length_append, List.length_singleton] at hi
      omega
    subst hlen
    have hget : (sorted ++ [t0]).get ⟨sorted.length, hi⟩ = t0 := by
      simp
    rw [hget] at hb
    rw [List.take_append_of_le_length (le_refl _), List.take_length]
    exact hdeps b hb

/-- One iteration of `kahnLoop` preserves the invariant: popping `name` from
the queue, emitting its type and running the decrement pass yields the
invariant for the new state. -/
theorem kahnInv_step (types : List InterfaceDefinition) (generics : List String)
    (hN : (namesOf types).Nodup) (inDeg : List (String × Int)) (name : String)
    (rest : List String) (sorted : List InterfaceDefinition)
    (hinv : KahnInv types generics inDeg (name :: rest) sorted)
    (t0 : InterfaceDefinition) (ht0 : t0 ∈ types) (ht0n : t0.name = name) :
    KahnInv types generics
      ((typeNamesOf types).foldl (kahnDecrement (depsMapOf types generics) name)
        (inDeg, rest)).1
      ((typeNamesOf types).foldl (kahnDecrement (depsMapOf types generics) name)
        (inDeg, rest)).2
      (sorted ++ [t0]) := by
  have hname : name ∈ namesOf types := hinv.queueSub name (List.mem_cons_self _ _)
  have hnd' : (name :: (rest ++ namesOf sorted)).Nodup := by
    simpa using hinv.nodup
  have hnameNot : name ∉ rest ++ namesOf sorted := (List.nodup_cons.mp hnd').1
  have hnameRest : name ∉ rest := fun h => hnameNot (List.mem_append_left _ h)
  have hnameS : name ∉ namesOf sorted := fun h => hnameNot (List.mem_append_right _ h)
  have hrs : (rest ++ namesOf sorted).Nodup := (List.nodup_cons.mp hnd').2
  have hrestnd : rest.Nodup := (List.nodup_append.mp hrs).1
  have hSnd : (namesOf sorted).Nodup := (List.nodup_append.mp hrs).2.1
  have hrsDisj : rest.Disjoint (namesOf sorted) := (List.nodup_append.mp hrs).2.2
  have hTNsub : ∀ x ∈ typeNamesOf types, x ∈ namesOf types :=
    fun x hx => mem_typeNamesOf.mp hx
  have hTNnd : (typeNamesOf types).Nodup := dedupeKeepFirst_nodup _
  obtain ⟨hdeg2, hq2⟩ := kahnDecrement_foldl types generics hN name
    (typeNamesOf types) hTNsub hTNnd
    (degExpr types generics (namesOf sorted)) inDeg rest hinv.deg
  have hpushed : ∀ dn ∈ (typeNamesOf types).filter (fun dn =>
      decide (name ∈ depsOf types generics dn) &&
      decide (degExpr types generics (namesOf sorted) dn - 1 = 0)),
      dn ∈ namesOf types ∧ name ∈ depsOf types generics dn ∧
        degExpr types generics (namesOf sorted) dn = 1 := by
    intro dn hdn
    have h1 := List.mem_filter.mp hdn
    have h2 : name ∈ depsOf types generics dn ∧
        degExpr types generics (namesOf sorted) dn - 1 = 0 := by
      simpa using h1.2
    exact ⟨mem_typeNamesOf.mp h1.1, h2.1, by omega⟩
  have hpushednd : ((typeNamesOf types).filter (fun dn =>
      decide (name ∈ depsOf types generics dn) &&
      decide (degExpr types generics (namesOf sorted) dn - 1 = 0))).Nodup :=
    hTNnd.filter _
  have hpushedS : ∀ dn ∈ (typeNamesOf types).filter (fun dn =>
      decide (name ∈ depsOf types generics dn) &&
      decide (degExpr types generics (namesOf sorted) dn - 1 = 0)),
      dn ∉ namesOf sorted := by
    intro dn hdn hdnS
    obtain ⟨_, hm, _⟩ := hpushed dn hdn
    exact hnameS (deps_sub_of_sorted types generics hinv.ordered hdnS name hm)
  have hpushedName : ∀ dn ∈ (typeNamesOf types).filter (fun dn =>
      decide (name ∈ depsOf types generics dn) &&
      decide (degExpr types generics (namesOf sorted) dn - 1 = 0)),
      ¬ dn = name := by
    intro dn hdn he
    obtain ⟨hdnN, hm, _⟩ := hpushed dn hdn
    subst he
    exact depsOf_not_self types generics hN hdnN hm
  have hpushedRest : ∀ dn ∈ (typeNamesOf types).filter (fun dn =>
      decide (name ∈ depsOf types generics dn) &&
      decide (degExpr types generics (namesOf sorted) dn - 1 = 0)),
      dn ∉ rest := by
    intro dn hdn hdnRest
    obtain ⟨_, hm, _⟩ := hpushed dn hdn
    exact hnameS (hinv.queueDeps dn (List.mem_cons_of_mem _ hdnRest) name hm)
  have hnames' : namesOf (sorted ++ [t0]) = namesOf sorted ++ [name] := by
    simp [namesOf, ht0n]
  refine ⟨?_, ?_, ?_, ?_, ?_, ?_⟩
  · rw [hq2, hnames']
    simp only [List.nodup_append]
    refine ⟨⟨hrestnd, hpushednd, ?_⟩, ⟨hSnd, List.nodup_singleton _, ?_⟩, ?_⟩
    · intro a ha hap
      exact hpushedRest a hap ha
    · intro a ha han
      rw [List.mem_singleton] at han
      exact hnameS (han ▸ ha)
    · intro a ha hmem
      rcases List.mem_append.mp ha with h | h
      · rcases List.mem_append.mp hmem with h2 | h2
        · exact hrsDisj h h2
        · rw [List.mem_singleton] at h2
          exact hnameRest (h2 ▸ h)
      · rcases List.mem_append.mp hmem with h2 | h2
        · exact hpushedS a h h2
        · rw [List.mem_singleton] at h2
          exact hpushedName a h h2
  · rw [hq2]
    intro n hn
    rcases List.mem_append.mp hn with h | h
    · exact hinv.queueSub n (List.mem_cons_of_mem _ h)
    · exact (hpushed n h).1
  · intro t ht
    rcases List.mem_append.mp ht with h | h
    · exact hinv.sortedSub t h
    · rw [List.mem_singleton] at h
      exact h ▸ ht0
  · intro n hn
    rw [hdeg2 n hn, hnames',
      degExpr_append types generics hN (namesOf sorted) name hnameS hn]
    have hTn : n ∈ typeNamesOf types := mem_typeNamesOf.mpr hn
    by_cases hm : name ∈ depsOf types generics n
    · rw [if_pos ⟨hTn, hm⟩, if_pos hm]
    · rw [if_neg (fun hc => hm hc.2), if_neg hm]
  · rw [hq2]
    intro n hn b hb
    rw [hnames']
    rcases List.mem_append.mp hn with h | h
    · exact List.mem_append_left _ (hinv.queueDeps n (List.mem_cons_of_mem _ h) b hb)
    · obtain ⟨hnN, hm, hone⟩ := hpushed n h
      have hDnd := depsOf_nodup types generics hN hnN
      have hlen := filter_contains_append_one_mem (depsOf types generics n)
        (namesOf sorted) name hDnd hm hnameS
      have h1 : ((depsOf types generics n).filter
          (fun d => (namesOf sorted).contains d)).length + 1 =
          (depsOf types generics n).length := by
        unfold degExpr at hone
        omega
      have hall := List.filter_length_eq_length.mp (by omega :
        ((depsOf types generics n).filter
          (fun d => (namesOf sorted ++ [name]).contains d)).length =
        (depsOf types generics n).length)
      have hb2 := hall b hb
      simpa using hb2
  · apply depsPrecede_append types generics hinv.ordered t0
    rw [ht0n]
    exact hinv.queueDeps name (List.mem_cons_self _ _)

theorem kahnLoop_post (types : List InterfaceDefinition) (generics : List String)
    (hN : (namesOf types).Nodup) :
    ∀ (fuel : Nat) (inDeg : List (String × Int)) (queue : List String)
      (sorted : List InterfaceDefinition),
      KahnInv types generics inDeg queue sorted →
      KahnPost types generics
        (kahnLoop (typeMapOf types) (depsMapOf types generics) (typeNamesOf types)
          fuel inDeg queue sorted) := by
  intro fuel
  induction fuel with
  | zero =>
    intro inDeg queue sorted hinv
    exact ⟨(List.nodup_append.mp hinv.nodup).2.1, hinv.sortedSub, hinv.ordered⟩
  | succ fuel ih =>
    intro inDeg queue sorted hinv
    match queue with
    | [] =>
      exact ⟨(List.nodup_append.mp hinv.nodup).2.1, hinv.sortedSub, hinv.ordered⟩
    | name :: rest =>
      have hname : name ∈ namesOf types := hinv.queueSub name (List.mem_cons_self _ _)
      obtain ⟨t0, ht0, ht0n, hget⟩ := typeMap_get types hN hname
      have hstep := kahnInv_step types generics hN inDeg name rest sorted hinv t0 ht0 ht0n
      have hpost := ih _ _ _ hstep
      simp only [kahnLoop, hget]
      exact hpost

theorem kahnSorted_post (types : List InterfaceDefinition) (generics : List String)
    (hN : (namesOf types).Nodup) :
    KahnPost types generics (kahnSorted types generics) := by
  apply kahnLoop_post types generics hN
  refine ⟨?_, ?_, ?_, ?_, ?_, ?_⟩
  · have h := queue0_eq types generics hN
    simp only [namesOf, List.map_nil, List.append_nil]
    rw [h]
    exact hN.filter _
  · exact fun n hn => (queue0_mem types generics hN hn).1
  · intro t ht
    cases ht
  · intro n hn
    rw [inDeg0_get types generics hN hn]
    unfold degExpr
    simp [namesOf]
  · intro n hn b hb
    rw [(queue0_mem types generics hN hn).2] at hb
    cases hb
  · intro i hi
    exact absurd hi (by simp)

/-- `topologicalSortTypes` always decomposes as the queue-phase output
followed by the not-emitted input entries in input order (when the queue
phase emits everything, the residual filter is empty and the equation
degenerates to `sorted`). -/
theorem topologicalSortTypes_decomp (types : List InterfaceDefinition)
    (generics : List String) (hN : (namesOf types).Nodup) :
    topologicalSortTypes types generics =
      kahnSorted types generics ++
        types.filter (fun t => !(kahnSorted types generics).contains t) := by
  unfold topologicalSortTypes
  by_cases he : types.isEmpty
  · rw [if_pos he]
    have h0 : types = [] := List.isEmpty_iff.mp he
    subst h0
    rfl
  · rw [if_neg he]
    by_cases hlen : (kahnSorted types generics).length < types.length
    · rw [if_pos hlen]
    · rw [if_neg hlen]
      have hpost := kahnSorted_post types generics hN
      have hksnd : (kahnSorted types generics).Nodup := List.Nodup.of_map _ hpost.1
      have htnd : types.Nodup := List.Nodup.of_map _ hN
      have hsub : ∀ t ∈ kahnSorted types generics, t ∈ types := hpost.2.1
      have hcard : types.toFinset.card ≤ (kahnSorted types generics).toFinset.card := by
        rw [List.toFinset_card_of_nodup htnd, List.toFinset_card_of_nodup hksnd]
        omega
      have hsubF : (kahnSorted types generics).toFinset ⊆ types.toFinset := by
        intro x hx
        rw [List.mem_toFinset] at hx ⊢
        exact hsub x hx
      have heq := Finset.eq_of_subset_of_card_le hsubF hcard
      have hfilter : types.filter
          (fun t => !(kahnSorted types generics).contains t) = [] := by
        rw [List.filter_eq_nil_iff]
        intro t ht
        have h1 : t ∈ types.toFinset := List.mem_toFinset.mpr ht
        rw [← heq] at h1
        have h2 : t ∈ kahnSorted types generics := List.mem_toFinset.mp h1
        simp [h2]
      rw [hfilter, List.append_nil]

/-- C1 counterexample: with `Alpha → Beta → Delta ⇄ Epsilon` (and no path
back to `Alpha` or `Beta`, as the four dependency lists show), every node
has in-degree 1, the initial queue is empty, the queue phase emits nothing,
and the residual append reproduces the input order — so `Alpha` precedes
`Beta` in the artifact even though `Alpha` references `Beta` and there is no
dependency cycle between them, refuting the claimed invariant. -/
theorem c1_counterexample :
    topologicalSortTypes
        [ { name := "Alpha", source := "interface Alpha { b: Beta }", module := "m" },
          { name := "Beta", source := "interface Beta { d: Delta }", module := "m" },
          { name := "Delta", source := "interface Delta { e: Epsilon }", module := "m" },
          { name := "Epsilon", source := "interface Epsilon { d: Delta }", module := "m" } ]
        [] =
      [ { name := "Alpha", source := "interface Alpha { b: Beta }", module := "m" },
        { name := "Beta", source := "interface Beta { d: Delta }", module := "m" },
        { name := "Delta", source := "interface Delta { e: Epsilon }", module := "m" },
        { name := "Epsilon", source := "interface Epsilon { d: Delta }", module := "m" } ] ∧
    kahnSorted
        [ { name := "Alpha", source := "interface Alpha { b: Beta }", module := "m" },
          { name := "Beta", source := "interface Beta { d: Delta }", module := "m" },
          { name := "Delta", source := "interface Delta { e: Epsilon }", module := "m" },
          { name := "Epsilon", source := "interface Epsilon { d: Delta }", module := "m" } ]
        [] = [] ∧
    depsOf
        [ { name := "Alpha", source := "interface Alpha { b: Beta }", module := "m" },
          { name := "Beta", source := "interface Beta { d: Delta }", module := "m" },
          { name := "Delta", source := "interface Delta { e: Epsilon }", module := "m" },
          { name := "Epsilon", source := "interface Epsilon { d: Delta }", module := "m" } ]
        [] "Alpha" = ["Beta"] ∧
    depsOf
        [ { name := "Alpha", source := "interface Alpha { b: Beta }", module := "m" },
          { name := "Beta", source := "interface Beta { d: Delta }", module := "m" },
          { name := "Delta", source := "interface Delta { e: Epsilon }", module := "m" },
          { name := "Epsilon", source := "interface Epsilon { d: Delta }", module := "m" } ]
        [] "Beta" = ["Delta"] ∧
    depsOf
        [ { name := "Alpha", source := "interface Alpha { b: Beta }", module := "m" },
          { name := "Beta", source := "interface Beta { d: Delta }", module := "m" },
          { name := "Delta", source := "interface Delta { e: Epsilon }", module := "m" },
          { name := "Epsilon", source := "interface Epsilon { d: Delta }", module := "m" } ]
        [] "Delta" = ["Epsilon"] ∧
    depsOf
        [ { name := "Alpha", source := "interface Alpha { b: Beta }", module := "m" },
          { name := "Beta", source := "interface Beta { d: Delta }", module := "m" },
          { name := "Delta", source := "interface Delta { e: Epsilon }", module := "m" },
          { name := "Epsilon", source := "interface Epsilon { d: Delta }", module := "m" } ]
        [] "Epsilon" = ["Delta"] := by
  refine ⟨by decide, by decide, by decide, by decide, by decide, by decide⟩

/-- C1 (amended): under pairwise-distinct type names, the emitted artifact
order is exactly the queue-phase (Kahn) output followed by the residual
(not-emitted) nodes in input (discovery) order, and within the queue-phase
output every type's dependencies occur strictly earlier.  The claimed
invariant — `B` precedes `A` whenever `A` references `B` and no cycle runs
between them — holds for the emitted prefix but fails for residual nodes:
an acyclic node whose dependency chain merely reaches a cycle is never
emitted by the queue and keeps its input position (see the
counterexample). -/
theorem c1_amended_topological_order (types : List InterfaceDefinition)
    (generics : List String) (hN : (namesOf types).Nodup) :
    topologicalSortTypes types generics =
      kahnSorted types generics ++
        types.filter (fun t => !(kahnSorted types generics).contains t) ∧
    depsPrecede types generics (kahnSorted types generics) :=
  ⟨topologicalSortTypes_decomp types generics hN,
   (kahnSorted_post types generics hN).2.2⟩

/-- Witness for C1 (amended) on a concrete acyclic two-type input. -/
theorem c1_witness :
    (namesOf
      [ { name := "Leaf", source := "interface Leaf { x: number }", module := "m" },
        { name := "Node", source := "interface Node { l: Leaf }", module := "m" } ]).Nodup ∧
    (topologicalSortTypes
        [ { name := "Leaf", source := "interface Leaf { x: number }", module := "m" },
          { name := "Node", source := "interface Node { l: Leaf }", module := "m" } ] [] =
      kahnSorted
          [ { name := "Leaf", source := "interface Leaf { x: number }", module := "m" },
            { name := "Node", source := "interface Node { l: Leaf }", module := "m" } ] [] ++
        ([ { name := "Leaf", source := "interface Leaf { x: number }", module := "m" },
           { name := "Node", source := "interface Node { l: Leaf }", module := "m" } ] :
          List InterfaceDefinition).filter
          (fun t => !(kahnSorted
            [ { name := "Leaf", source := "interface Leaf { x: number }", module := "m" },
              { name := "Node", source := "interface Node { l: Leaf }", module := "m" } ]
            []).contains t) ∧
     depsPrecede
       [ { name := "Leaf", source := "interface Leaf { x: number }", module := "m" },
         { name := "Node", source := "interface Node { l: Leaf }", module := "m" } ] []
       (kahnSorted
         [ { name := "Leaf", source := "interface Leaf { x: number }", module := "m" },
           { name := "Node", source := "interface Node { l: Leaf }", module := "m" } ] [])) :=
  ⟨by decide,
   c1_amended_topological_order
     [ { name := "Leaf", source := "interface Leaf { x: number }", module := "m" },
       { name := "Node", source := "interface Node { l: Leaf }", module := "m" } ]
     [] (by decide)⟩

/-- C10: with pairwise-distinct type names, `topologicalSortTypes` returns a
permutation of its input — nothing is dropped or duplicated, cycles
included (residual cyclic members are appended by the final filter). -/
theorem c10_sort_is_permutation (types : List InterfaceDefinition)
    (generics : List String) (hN : (namesOf types).Nodup) :
    (topologicalSortTypes types generics).Perm types := by
  rw [topologicalSortTypes_decomp types generics hN]
  have hpost := kahnSorted_post types generics hN
  have hksnd : (kahnSorted types generics).Nodup := List.Nodup.of_map _ hpost.1
  have htnd : types.Nodup := List.Nodup.of_map _ hN
  have hsub : ∀ t ∈ kahnSorted types generics, t ∈ types := hpost.2.1
  have hfnd : (types.filter
      (fun t => !(kahnSorted types generics).contains t)).Nodup := htnd.filter _
  have happnd : (kahnSorted types generics ++
      types.filter (fun t => !(kahnSorted types generics).contains t)).Nodup := by
    rw [List.nodup_append]
    refine ⟨hksnd, hfnd, ?_⟩
    intro a ha haf
    have h2 := List.of_mem_filter haf
    simp only [Bool.not_eq_true'] at h2
    have h3 : (kahnSorted types generics).contains a = true :=
      List.elem_eq_true_of_mem ha
    rw [h3] at h2
    cases h2
  apply List.perm_of_nodup_nodup_toFinset_eq happnd htnd
  apply Finset.ext
  intro x
  rw [List.mem_toFinset, List.mem_toFinset, List.mem_append]
  constructor
  · rintro (h | h)
    · exact hsub x h
    · exact (List.mem_filter.mp h).1
  · intro hx
    by_cases hks : x ∈ kahnSorted types generics
    · exact Or.inl hks
    · refine Or.inr (List.mem_filter.mpr ⟨hx, ?_⟩)
      simp [hks]

/-- Witness for C10 on a concrete input with a dependency cycle. -/
theorem c10_witness :
    (namesOf
      [ { name := "Alpha", source := "interface Alpha { b: Beta }", module := "m" },
        { name := "Beta", source := "interface Beta { a: Alpha }", module := "m" },
        { name := "Gamma", source := "interface Gamma { x: number }", module := "m" } ]).Nodup ∧
    (topologicalSortTypes
        [ { name := "Alpha", source := "interface Alpha { b: Beta }", module := "m" },
          { name := "Beta", source := "interface Beta { a: Alpha }", module := "m" },
          { name := "Gamma", source := "interface Gamma { x: number }", module := "m" } ]
        []).Perm
      [ { name := "Alpha", source := "interface Alpha { b: Beta }", module := "m" },
        { name := "Beta", source := "interface Beta { a: Alpha }", module := "m" },
        { name := "Gamma", source := "interface Gamma { x: number }", module := "m" } ] :=
  ⟨by decide,
   c10_sort_is_permutation
     [ { name := "Alpha", source := "interface Alpha { b: Beta }", module := "m" },
       { name := "Beta", source := "interface Beta { a: Alpha }", module := "m" },
       { name := "Gamma", source := "interface Gamma { x: number }", module := "m" } ]
     [] (by decide)⟩

/-! Lemmas for C6: a name that occurs in no method signature and in no
extracted local source never enters the referenced-type closure nor the
external import sets. -/

theorem mem_foldl_cond_jsAdd (c : String → Bool) (names : List String) :
    ∀ (acc : List String) {y : String},
      y ∈ names.foldl (fun a n => if c n then a else jsAdd a n) acc →
      y ∈ acc ∨ y ∈ names := by
  induction names with
  | nil => exact fun acc _ h => Or.inl h
  | cons n rest ih =>
    intro acc y h
    rw [List.foldl_cons] at h
    rcases ih _ h with h2 | h2
    · by_cases hc : c n = true
      · rw [if_pos hc] at h2
        exact Or.inl h2
      · rw [if_neg hc] at h2
        rcases mem_jsAdd.mp h2 with h3 | h3
        · exact Or.inl h3
        · exact Or.inr (by rw [h3]; exact List.mem_cons_self _ _)
    · exact Or.inr (List.mem_cons_of_mem _ h2)

theorem mem_addNames {generics acc names : List String} {y : String}
    (h : y ∈ addNames generics acc names) : y ∈ acc ∨ y ∈ names :=
  mem_foldl_cond_jsAdd (fun n => generics.contains n) names acc h

theorem not_mem_foldl_addNames {β : Type} (g : List String) (l : List β)
    (txt : β → List String) (r : List String) (X : String)
    (hr : X ∉ r) (hl : ∀ b ∈ l, X ∉ txt b) :
    X ∉ l.foldl (fun r b => addNames g r (txt b)) r := by
  induction l generalizing r with
  | nil => exact hr
  | cons b rest ih =>
    rw [List.foldl_cons]
    apply ih
    · intro hmem
      rcases mem_addNames hmem with h | h
      · exact hr h
      · exact hl b (List.mem_cons_self _ _) h
    · exact fun b2 hb2 => hl b2 (List.mem_cons_of_mem _ hb2)

theorem collectSignatureRefs_aux (X : String) :
    ∀ (methods : List RpcMethodInfo) (st : List String × List String),
      X ∉ st.2 →
      (∀ m ∈ methods, X ∉ extractTypeNames m.returnType ∧
        (∀ pr ∈ m.paramTypes, X ∉ extractTypeNames pr.2) ∧
        (∀ tp ∈ m.typeParameters.getD [], X ∉ extractTypeNames tp)) →
      X ∉ (methods.foldl
        (fun (st : List String × List String) m =>
          let g := (m.typeParameters.getD []).foldl
            (fun g tp => jsAdd g (firstWord tp)) st.1
          let r := m.paramTypes.foldl
            (fun r pr => addNames g r (extractTypeNames pr.2)) st.2
          let r := addNames g r (extractTypeNames m.returnType)
          let r := (m.typeParameters.getD []).foldl
            (fun r tp => addNames g r (extractTypeNames tp)) r
          (g, r)) st).2 := by
  intro methods
  induction methods with
  | nil =>
    intro st hst _
    exact hst
  | cons m rest ih =>
    intro st hst hall
    rw [List.foldl_cons]
    apply ih
    · obtain ⟨h1, h2, h3⟩ := hall m (List.mem_cons_self _ _)
      exact not_mem_foldl_addNames _ _ _ _ _
        (fun hmem2 => (mem_addNames hmem2).elim
          (fun h => not_mem_foldl_addNames _ _ _ _ _ hst h2 h)
          (fun h => h1 h))
        h3
    · exact fun m2 hm2 => hall m2 (List.mem_cons_of_mem _ hm2)

theorem collectSignatureRefs_not_mem (methods : List RpcMethodInfo) (X : String)
    (hm : ∀ m ∈ methods, X ∉ extractTypeNames m.returnType ∧
      (∀ pr ∈ m.paramTypes, X ∉ extractTypeNames pr.2) ∧
      (∀ tp ∈ m.typeParameters.getD [], X ∉ extractTypeNames tp)) :
    X ∉ (collectSignatureRefs methods).2 :=
  collectSignatureRefs_aux X methods ([], []) (List.not_mem_nil X) hm

theorem closureRound_not_mem (interfaces : List (String × InterfaceDefinition))
    (generics : List String) (X : String)
    (hint : ∀ p ∈ interfaces, X ∉ extractTypeNames p.2.source)
    (st : List String × List String) (typeName : String)
    (hX1 : X ∉ st.1) (hX2 : X ∉ st.2) (hXt : X ≠ typeName) :
    X ∉ (closureRound interfaces generics st typeName).1 ∧
    X ∉ (closureRound interfaces generics st typeName).2 := by
  unfold closureRound
  by_cases hc : (st.1.contains typeName || generics.contains typeName) = true
  · rw [if_pos hc]
    exact ⟨hX1, hX2⟩
  · rw [if_neg hc]
    have hcol : X ∉ st.1 ++ [typeName] := by
      intro h
      rcases List.mem_append.mp h with h | h
      · exact hX1 h
      · exact hXt (by simpa using h)
    rcases hj : jsGet? interfaces typeName with _ | idef
    · simp only [hj]
      exact ⟨hcol, hX2⟩
    · simp only [hj]
      refine ⟨hcol, ?_⟩
      intro h
      rcases mem_foldl_cond_jsAdd _ _ _ h with h2 | h2
      · exact hX2 h2
      · exact hint _ (mem_of_jsGet?_eq_some hj) h2

theorem closureLoopAux_not_mem (interfaces : List (String × InterfaceDefinition))
    (generics : List String) (X : String)
    (hint : ∀ p ∈ interfaces, X ∉ extractTypeNames p.2.source) :
    ∀ (fuel : Nat) (collected toProcess : List String),
      X ∉ collected → X ∉ toProcess →
      X ∉ closureLoopAux interfaces generics fuel collected toProcess := by
  intro fuel
  induction fuel with
  | zero =>
    intro collected toProcess h1 _
    exact h1
  | succ fuel ih =>
    intro collected toProcess h1 h2
    have hfold : ∀ (tp : List String) (st0 : List String × List String),
        X ∉ st0.1 → X ∉ st0.2 → (∀ t ∈ tp, X ≠ t) →
        X ∉ (tp.foldl (closureRound interfaces generics) st0).1 ∧
        X ∉ (tp.foldl (closureRound interfaces generics) st0).2 := by
      intro tp
      induction tp with
      | nil =>
        intro st0 a b _
        exact ⟨a, b⟩
      | cons t rest ih2 =>
        intro st0 a b hXt
        rw [List.foldl_cons]
        obtain ⟨a2, b2⟩ := closureRound_not_mem interfaces generics X hint st0 t a b
          (hXt t (List.mem_cons_self _ _))
        exact ih2 _ a2 b2 (fun t2 ht2 => hXt t2 (List.mem_cons_of_mem _ ht2))
    simp only [closureLoopAux]
    by_cases he : toProcess.isEmpty = true
    · rw [if_pos he]
      exact h1
    · rw [if_neg he]
      obtain ⟨hc1, hc2⟩ := hfold toProcess (collected, []) h1 (List.not_mem_nil X)
        (fun t ht he2 => h2 (he2 ▸ ht))
      exact ih _ _ hc1 hc2

theorem moduleReferencedTypes_not_mem (st : GenState) (methods : List RpcMethodInfo)
    (X : String)
    (hint : ∀ p ∈ st.interfaces, X ∉ extractTypeNames p.2.source)
    (hsig : X ∉ (collectSignatureRefs methods).2) :
    X ∉ (moduleReferencedTypes st methods).2 := by
  unfold moduleReferencedTypes
  intro h
  rcases mem_foldl_jsAdd.mp h with h2 | h2
  · exact hsig h2
  · exact closureLoopAux_not_mem st.interfaces _ X hint _ [] _
      (List.not_mem_nil X) hsig h2

theorem extImportsAdd_not_mem (ext : List (String × List String)) (pkg ty X : String)
    (hX : ∀ q ∈ ext, X ∉ q.2) (hty : X ≠ ty) :
    ∀ q ∈ extImportsAdd ext pkg ty, X ∉ q.2 := by
  intro q hq
  rcases mem_jsSet _ _ _ _ hq with h | h
  · rw [h]
    intro hmem
    rcases mem_jsAdd.mp hmem with h2 | h2
    · rcases hj : jsGet? ext pkg with _ | s
      · rw [hj] at h2
        simp only [Option.getD_none] at h2
        cases h2
      · rw [hj] at h2
        simp only [Option.getD_some] at h2
        exact hX _ (mem_of_jsGet?_eq_some hj) h2
    · exact hty h2
  · exact hX q h

theorem mem_expand_aux (checked generics : List String) (current : String)
    {y : String} :
    ∀ (ifs : List (String × InterfaceDefinition)) (toCheck : List String),
      y ∈ ifs.foldl (fun tc p =>
        if chContainsSub p.2.source.toList current.toList then
          (extractTypeNames p.2.source).foldl
            (fun tc n =>
              if checked.contains n || generics.contains n then tc else jsAdd tc n)
            tc
        else tc) toCheck →
      y ∈ toCheck ∨ ∃ p ∈ ifs, y ∈ extractTypeNames p.2.source := by
  intro ifs
  induction ifs with
  | nil => exact fun toCheck h => Or.inl h
  | cons p rest ih =>
    intro toCheck h
    rw [List.foldl_cons] at h
    rcases ih _ h with h2 | h2
    · by_cases hc : chContainsSub p.2.source.toList current.toList = true
      · rw [if_pos hc] at h2
        rcases mem_foldl_cond_jsAdd _ _ _ h2 with h3 | h3
        · exact Or.inl h3
        · exact Or.inr ⟨p, List.mem_cons_self _ _, h3⟩
      · rw [if_neg hc] at h2
        exact Or.inl h2
    · obtain ⟨p2, hp2, hy⟩ := h2
      exact Or.inr ⟨p2, List.mem_cons_of_mem _ hp2, hy⟩

theorem mem_expandFromMatchingInterfaces
    (interfaces : List (String × InterfaceDefinition))
    (checked generics : List String) (current : String) (toCheck : List String)
    {y : String}
    (h : y ∈ expandFromMatchingInterfaces interfaces checked generics current toCheck) :
    y ∈ toCheck ∨ ∃ p ∈ interfaces, y ∈ extractTypeNames p.2.source :=
  mem_expand_aux checked generics current interfaces toCheck h

theorem localSourceOf_not_mem (st : GenState) (X : String)
    (hint : ∀ p ∈ st.interfaces, X ∉ extractTypeNames p.2.source)
    (henum : ∀ p ∈ st.enums, X ∉ extractTypeNames p.2.source)
    {n : String} {src : String} (h : localSourceOf st n = some src) :
    X ∉ extractTypeNames src := by
  unfold localSourceOf at h
  rcases hj : jsGet? st.interfaces n with _ | idef
  · simp only [hj] at h
    rcases hj2 : jsGet? st.enums n with _ | edef
    · rw [hj2] at h
      cases h
    · rw [hj2] at h
      simp only [Option.map_some'] at h
      have he : edef.source = src := Option.some.inj h
      exact he ▸ henum _ (mem_of_jsGet?_eq_some hj2)
  · simp only [hj] at h
    have he : idef.source = src := Option.some.inj h
    exact he ▸ hint _ (mem_of_jsGet?_eq_some hj)

theorem collectExtLoop_not_mem (st : GenState) (generics : List String) (X : String)
    (hint : ∀ p ∈ st.interfaces, X ∉ extractTypeNames p.2.source)
    (henum : ∀ p ∈ st.enums, X ∉ extractTypeNames p.2.source) :
    ∀ (fuel : Nat) (ext : List (String × List String))
      (toCheck checked : List String),
      (∀ q ∈ ext, X ∉ q.2) → X ∉ toCheck →
      ∀ q ∈ collectExtLoop st generics fuel ext toCheck checked, X ∉ q.2 := by
  intro fuel
  induction fuel with
  | zero =>
    intro ext toCheck checked hext _ q hq
    exact hext q hq
  | succ fuel ih =>
    intro ext toCheck checked hext hX q hq
    rcases toCheck with _ | ⟨current, rest⟩
    · exact hext q hq
    · have hXc : X ≠ current := fun he => hX (he ▸ List.mem_cons_self _ _)
      have hXr : X ∉ rest := fun h => hX (List.mem_cons_of_mem _ h)
      simp only [collectExtLoop] at hq
      by_cases hb1 : (isBuiltInType current || generics.contains current ||
          isInternalType current) = true
      · rw [if_pos hb1] at hq
        exact ih _ _ _ hext hXr q hq
      · rw [if_neg hb1] at hq
        by_cases hb2 : (!(jsHas st.interfaces current || jsHas st.enums current) &&
            jsHas st.typeToPackageMap current) = true
        · rw [if_pos hb2] at hq
          refine ih _ _ _ ?_ ?_ q hq
          · exact extImportsAdd_not_mem ext _ current X hext hXc
          · intro hmem
            rcases mem_expandFromMatchingInterfaces _ _ _ _ _ hmem with h | h
            · exact hXr h
            · obtain ⟨p, hp, hy⟩ := h
              exact hint p hp hy
        · rw [if_neg hb2] at hq
          by_cases hb3 : (jsHas st.interfaces current || jsHas st.enums current) = true
          · rw [if_pos hb3] at hq
            rcases hls : localSourceOf st current with _ | src
            · rw [hls] at hq
              exact ih _ _ _ hext hXr q hq
            · rw [hls] at hq
              refine ih _ _ _ hext ?_ q hq
              intro hmem
              rcases mem_foldl_cond_jsAdd _ _ _ hmem with h | h
              · exact hXr h
              · exact localSourceOf_not_mem st X hint henum hls h
          · rw [if_neg hb3] at hq
            exact ih _ _ _ hext hXr q hq

theorem collectExternalImports_not_mem (st : GenState)
    (referencedTypes generics : List String) (X : String)
    (hint : ∀ p ∈ st.interfaces, X ∉ extractTypeNames p.2.source)
    (henum : ∀ p ∈ st.enums, X ∉ extractTypeNames p.2.source)
    (hrefs : X ∉ referencedTypes) :
    ∀ q ∈ collectExternalImports st referencedTypes generics, X ∉ q.2 :=
  collectExtLoop_not_mem st generics X hint henum _ [] referencedTypes []
    (fun q hq => absurd hq (List.not_mem_nil q)) hrefs

/-- C6 counterexample: the external type `Xext` occurs only inside the body
of the local type `A` and in no method signature (the computed signature
reference set is `["A"]`), yet the worklist expands signature references
through local interface sources, reaches `Xext`, and the module artifact
imports it: the import map is `[("pkgx", ["Xext"])]`.  This refutes the
claim that a type used only inside internal type bodies never appears in
the module's import statement. -/
theorem c6_counterexample :
    moduleExternalImports
        { interfaces :=
            [("A", { name := "A", source := "interface A { x: Xext }", module := "m" })],
          enums := [],
          typeToPackageMap := [("Xext", "pkgx")] }
        [ { pattern := "m.getA", methodName := "getA", module := "m",
            paramTypes := [], returnType := "A", sourceFile := "f.ts" } ]
      = [("pkgx", ["Xext"])] ∧
    collectSignatureRefs
        [ { pattern := "m.getA", methodName := "getA", module := "m",
            paramTypes := [], returnType := "A", sourceFile := "f.ts" } ]
      = ([], ["A"]) := by
  refine ⟨by decide, by decide⟩

/-- C6 (amended): a type that occurs neither in any method signature of the
module (parameter types, return types, generic constraints) nor in the
source text of any extracted local interface or enum does not appear in any
per-package import set of the module artifact.  (The original claim is
stronger and false: occurrence inside a closure-reachable local type body
does leak into the imports, see the counterexample.) -/
theorem c6_amended_unreferenced_not_imported (st : GenState)
    (methods : List RpcMethodInfo) (X : String)
    (hint : ∀ p ∈ st.interfaces, X ∉ extractTypeNames p.2.source)
    (henum : ∀ p ∈ st.enums, X ∉ extractTypeNames p.2.source)
    (hm : ∀ m ∈ methods, X ∉ extractTypeNames m.returnType ∧
      (∀ pr ∈ m.paramTypes, X ∉ extractTypeNames pr.2) ∧
      (∀ tp ∈ m.typeParameters.getD [], X ∉ extractTypeNames tp)) :
    ∀ q ∈ moduleExternalImports st methods, X ∉ q.2 := by
  have hsig := collectSignatureRefs_not_mem methods X hm
  have href := moduleReferencedTypes_not_mem st methods X hint hsig
  exact collectExternalImports_not_mem st _ _ X hint henum href

/-- Witness for C6 (amended): `Unused` is mapped to a package but referenced
nowhere, and indeed lands in no import set. -/
theorem c6_witness :
    (∀ p ∈ [("A", ({ name := "A", source := "interface A { x: B }", module := "m" } :
        InterfaceDefinition))], "Unused" ∉ extractTypeNames p.2.source) ∧
    (∀ p ∈ ([] : List (String × EnumDefinition)),
      "Unused" ∉ extractTypeNames p.2.source) ∧
    (∀ m ∈ ([ { pattern := "m.getA", methodName := "getA", module := "m",
                paramTypes := [], returnType := "A", sourceFile := "f.ts" } ] :
          List RpcMethodInfo),
      "Unused" ∉ extractTypeNames m.returnType ∧
      (∀ pr ∈ m.paramTypes, "Unused" ∉ extractTypeNames pr.2) ∧
      (∀ tp ∈ m.typeParameters.getD [], "Unused" ∉ extractTypeNames tp)) ∧
    (∀ q ∈ moduleExternalImports
        { interfaces :=
            [("A", { name := "A", source := "interface A { x: B }", module := "m" })],
          enums := [],
          typeToPackageMap := [("Unused", "pkgu"), ("B", "pkgb")] }
        [ { pattern := "m.getA", methodName := "getA", module := "m",
            paramTypes := [], returnType := "A", sourceFile := "f.ts" } ],
      "Unused" ∉ q.2) :=
  ⟨by decide, by decide, by decide,
   c6_amended_unreferenced_not_imported
     { interfaces :=
         [("A", { name := "A", source := "interface A { x: B }", module := "m" })],
       enums := [],
       typeToPackageMap := [("Unused", "pkgu"), ("B", "pkgb")] }
     [ { pattern := "m.getA", methodName := "getA", module := "m",
         paramTypes := [], returnType := "A", sourceFile := "f.ts" } ]
     "Unused" (by decide) (by decide) (by decide)⟩
